import Mathlib

/-!
Shallow embedding of the `transformer` repository (Go): the record data model,
the in-memory `SliceStore` backend (src/store/slicestore.go), the LevelDB
backend's session/lifecycle state machine (src/store/leveldb.go), and — since
their implementation files are not in the source tree, only their example
tests — spec-modelled versions of the demux (k-way sorted merge) reader and
the range-exclusion reader.

Byte strings are modelled as `List Nat`; `bytes.Compare` becomes the
lexicographic `bytesCompare`.  Go functions that can panic are embedded as
`Option`-returning functions (`none` = panic); functions that only ever
`return nil` for their error are embedded with an `Option String` error
component that is always `none`, mirroring the source.
-/

/-- Byte strings (Go `[]byte`), as lists of natural numbers. -/
abbrev Bytes := List Nat

/-- Model of Go `bytes.Compare`: lexicographic three-way comparison. -/
def bytesCompare : Bytes → Bytes → Ordering
  | [], [] => Ordering.eq
  | [], _ :: _ => Ordering.lt
  | _ :: _, [] => Ordering.gt
  | a :: as, b :: bs =>
    if a < b then Ordering.lt
    else if b < a then Ordering.gt
    else bytesCompare as bs

theorem bytesCompare_self (a : Bytes) : bytesCompare a a = Ordering.eq := by
  induction a with
  | nil => rfl
  | cons x xs ih => simp [bytesCompare, ih]

theorem bytesCompare_eq_iff {a b : Bytes} : bytesCompare a b = Ordering.eq ↔ a = b := by
  induction a generalizing b with
  | nil => cases b <;> simp [bytesCompare]
  | cons x xs ih =>
    cases b with
    | nil => simp [bytesCompare]
    | cons y ys =>
      by_cases hxy : x < y
      · simp [bytesCompare, hxy]
        omega
      · by_cases hyx : y < x
        · simp [bytesCompare, hxy, hyx]
          omega
        · have hxy2 : x = y := by omega
          subst hxy2
          simp [bytesCompare, ih]

theorem bytesCompare_lt_iff_gt {a b : Bytes} :
    bytesCompare a b = Ordering.lt ↔ bytesCompare b a = Ordering.gt := by
  induction a generalizing b with
  | nil => cases b <;> simp [bytesCompare]
  | cons x xs ih =>
    cases b with
    | nil => simp [bytesCompare]
    | cons y ys =>
      by_cases hxy : x < y
      · have hyx : ¬ y < x := by omega
        simp [bytesCompare, hxy, hyx]
      · by_cases hyx : y < x
        · simp [bytesCompare, hxy, hyx]
        · simp [bytesCompare, hxy, hyx, ih]

theorem bytesCompare_trichotomy (a b : Bytes) :
    bytesCompare a b = Ordering.lt ∨ a = b ∨ bytesCompare b a = Ordering.lt := by
  rcases h : bytesCompare a b with _ | _ | _
  · exact Or.inl rfl
  · exact Or.inr (Or.inl (bytesCompare_eq_iff.mp h))
  · exact Or.inr (Or.inr (bytesCompare_lt_iff_gt.mpr h))

theorem bytesCompare_lt_trans {a b c : Bytes}
    (hab : bytesCompare a b = Ordering.lt) (hbc : bytesCompare b c = Ordering.lt) :
    bytesCompare a c = Ordering.lt := by
  induction a generalizing b c with
  | nil =>
    cases c with
    | nil =>
      cases b with
      | nil => exact hab
      | cons y ys => simp [bytesCompare] at hbc
    | cons z zs => rfl
  | cons x xs ih =>
    cases b with
    | nil => simp [bytesCompare] at hab
    | cons y ys =>
      cases c with
      | nil => simp [bytesCompare] at hbc
      | cons z zs =>
        simp only [bytesCompare] at hab hbc ⊢
        by_cases hxy : x < y
        · by_cases hyz : y < z
          · have hxz : x < z := by omega
            simp [hxz]
          · by_cases hzy : z < y
            · simp [hxy, hyz, hzy] at hbc
            · have hyz2 : y = z := by omega
              subst hyz2
              simp [hxy]
        · by_cases hyx : y < x
          · simp [hxy, hyx] at hab
          · have hxy2 : x = y := by omega
            subst hxy2
            rw [if_neg hxy, if_neg hyx] at hab
            by_cases hyz : x < z
            · rw [if_pos hyz]
            · by_cases hzy : z < x
              · rw [if_neg hyz, if_pos hzy] at hbc
                simp at hbc
              · rw [if_neg hyz, if_neg hzy] at hbc ⊢
                exact ih hab hbc

theorem bytesCompare_lt_asymm {a b : Bytes}
    (h : bytesCompare a b = Ordering.lt) : bytesCompare b a ≠ Ordering.lt := by
  intro h2
  have := bytesCompare_lt_trans h h2
  rw [bytesCompare_self] at this
  exact absurd this (by simp)

theorem bytesCompare_lt_irrefl (a : Bytes) : bytesCompare a a ≠ Ordering.lt := by
  rw [bytesCompare_self]
  simp

/-- Strict lexicographic order on byte strings. -/
def kLT (a b : Bytes) : Prop := bytesCompare a b = Ordering.lt

/-- Non-strict lexicographic order on byte strings. -/
def kLE (a b : Bytes) : Prop := bytesCompare a b ≠ Ordering.gt

instance (a b : Bytes) : Decidable (kLT a b) :=
  inferInstanceAs (Decidable (bytesCompare a b = Ordering.lt))

instance (a b : Bytes) : Decidable (kLE a b) :=
  inferInstanceAs (Decidable (bytesCompare a b ≠ Ordering.gt))

theorem kLE_iff {a b : Bytes} : kLE a b ↔ kLT a b ∨ a = b := by
  constructor
  · intro h
    rcases bytesCompare_trichotomy a b with h1 | h1 | h1
    · exact Or.inl h1
    · exact Or.inr h1
    · exact absurd (bytesCompare_lt_iff_gt.mp h1) h
  · intro h
    rcases h with h | h
    · unfold kLE
      unfold kLT at h
      simp [h]
    · subst h
      unfold kLE
      rw [bytesCompare_self]
      simp

theorem kLT_trans {a b c : Bytes} (h1 : kLT a b) (h2 : kLT b c) : kLT a c :=
  bytesCompare_lt_trans h1 h2

theorem kLT_asymm {a b : Bytes} (h : kLT a b) : ¬ kLT b a :=
  bytesCompare_lt_asymm h

theorem kLT_irrefl (a : Bytes) : ¬ kLT a a := bytesCompare_lt_irrefl a

theorem kLT_of_kLT_of_kLE {a b c : Bytes} (h1 : kLT a b) (h2 : kLE b c) : kLT a c := by
  rcases kLE_iff.mp h2 with h | h
  · exact kLT_trans h1 h
  · subst h; exact h1

theorem kLT_of_kLE_of_kLT {a b c : Bytes} (h1 : kLE a b) (h2 : kLT b c) : kLT a c := by
  rcases kLE_iff.mp h1 with h | h
  · exact kLT_trans h h2
  · subst h; exact h2

theorem kLE_of_not_kLT {a b : Bytes} (h : ¬ kLT a b) : kLE b a := by
  rcases bytesCompare_trichotomy a b with h1 | h1 | h1
  · exact absurd h1 h
  · subst h1; exact kLE_iff.mpr (Or.inr rfl)
  · exact kLE_iff.mpr (Or.inl h1)

theorem kLE_total (a b : Bytes) : kLE a b ∨ kLE b a := by
  rcases bytesCompare_trichotomy a b with h | h | h
  · exact Or.inl (kLE_iff.mpr (Or.inl h))
  · exact Or.inl (kLE_iff.mpr (Or.inr h))
  · exact Or.inr (kLE_iff.mpr (Or.inl h))

theorem kLE_trans {a b c : Bytes} (h1 : kLE a b) (h2 : kLE b c) : kLE a c := by
  rcases kLE_iff.mp h1 with h | h
  · exact kLE_iff.mpr (Or.inl (kLT_of_kLT_of_kLE h h2))
  · subst h; exact h2

/-- Record (key bytes, value bytes, database-index tag), Go type `LevelDbRecord`. -/
structure Record where
  Key : Bytes
  Value : Bytes
  DatabaseIndex : Nat
deriving DecidableEq, Repr

/-- Go `Record.Copy` performs a deep copy; in the pure model it is the identity. -/
def Record.Copy (r : Record) : Record := r

/-- Sort relation used by `SliceStore.BeginReading` (Go `recordSlice.Less`
compares `bytes.Compare(p[i].Key, p[j].Key) < 0`; sorting needs its
reflexive closure). -/
def keyLE (r s : Record) : Prop := kLE r.Key s.Key

instance (r s : Record) : Decidable (keyLE r s) :=
  inferInstanceAs (Decidable (kLE r.Key s.Key))

instance : IsTotal Record keyLE := ⟨fun r s => kLE_total r.Key s.Key⟩

instance : IsTrans Record keyLE := ⟨fun _ _ _ h1 h2 => kLE_trans h1 h2⟩

/-- In-memory store, Go `SliceStore` (src/store/slicestore.go): a list of
records and an integer read cursor.  The Go zero value has an empty slice
and cursor 0. -/
structure SliceStore where
  records : List Record
  cursor : Int
deriving DecidableEq, Repr

/-- Go zero value `SliceStore\x7b\x7d`. -/
def SliceStore.init : SliceStore := { records := [], cursor := 0 }

/-- Model of `SliceStore.BeginReading`: sorts the records by key and resets
the cursor to -1; always returns a nil error.  Go uses `sort.Sort`, an
unspecified comparison sort; it is modelled by insertion sort (for the
key-distinct stores reachable through the API all comparison sorts agree). -/
def SliceStore.BeginReading (store : SliceStore) : SliceStore × Option String :=
  ({ records := List.insertionSort keyLE store.records, cursor := -1 }, none)

/-- Model of `SliceStore.ReadRecord`: increments the cursor, then returns nil
record and nil error at or past the end, else a copy of the record at the
cursor with nil error. -/
def SliceStore.ReadRecord (store : SliceStore) : SliceStore × Option Record × Option String :=
  let c := store.cursor + 1
  if c ≥ (store.records.length : Int) then
    ({ store with cursor := c }, none, none)
  else
    ({ store with cursor := c }, (store.records.get? c.toNat).map Record.Copy, none)

/-- Model of `SliceStore.EndReading`: a no-op returning nil. -/
def SliceStore.EndReading (store : SliceStore) : SliceStore × Option String := (store, none)

/-- Model of `SliceStore.BeginWriting`: a no-op returning nil. -/
def SliceStore.BeginWriting (store : SliceStore) : SliceStore × Option String := (store, none)

/-- Loop body of `SliceStore.WriteRecord`: replace the first record whose key
equals the new record's key (Go `bytes.Equal`), else append at the end. -/
def upsertRecord : List Record → Record → List Record
  | [], record => [record.Copy]
  | existingRecord :: rest, record =>
    if record.Key = existingRecord.Key then record.Copy :: rest
    else existingRecord :: upsertRecord rest record

/-- Model of `SliceStore.WriteRecord`: upsert by key; always returns nil. -/
def SliceStore.WriteRecord (store : SliceStore) (record : Record) : SliceStore × Option String :=
  ({ store with records := upsertRecord store.records record }, none)

/-- Model of `SliceStore.EndWriting`: a no-op returning nil. -/
def SliceStore.EndWriting (store : SliceStore) : SliceStore × Option String := (store, none)

/-- Model of `SliceStore.DeleteAllRecords`: sets the record slice to nil;
always returns nil, with no session precondition in the source. -/
def SliceStore.DeleteAllRecords (store : SliceStore) : SliceStore × Option String :=
  ({ store with records := [] }, none)

/-- Number of loop iterations of `SliceStore.Seek`: the cursor advances from
-1 while the next record's key compares below the target. -/
def seekSteps (records : List Record) (key : Bytes) : Nat :=
  match records with
  | [] => 0
  | r :: rest =>
    if bytesCompare r.Key key = Ordering.lt then seekSteps rest key + 1 else 0

/-- Model of `SliceStore.Seek`: resets the cursor to -1 and advances it while
the record after the cursor has key < `key`; always returns nil. -/
def SliceStore.Seek (store : SliceStore) (key : Bytes) : SliceStore × Option String :=
  ({ store with cursor := (seekSteps store.records key : Int) - 1 }, none)

/-- Drain a store by repeated `ReadRecord` until the nil-record sentinel,
with explicit fuel (any fuel past the record count is enough). -/
def SliceStore.readAll (fuel : Nat) (store : SliceStore) : List Record :=
  match fuel with
  | 0 => []
  | fuel + 1 =>
    match store.ReadRecord with
    | (store1, some r, _) => r :: store1.readAll fuel
    | (_, none, _) => []

@[simp]
theorem Record.Copy_eq (r : Record) : r.Copy = r := rfl

theorem mem_upsertRecord {l : List Record} {r x : Record} (h : x ∈ upsertRecord l r) :
    x = r ∨ x ∈ l := by
  induction l with
  | nil => simpa [upsertRecord] using h
  | cons e rest ih =>
    by_cases hk : r.Key = e.Key
    · simp only [upsertRecord, if_pos hk, Record.Copy_eq, List.mem_cons] at h
      rcases h with h | h
      · exact Or.inl h
      · exact Or.inr (List.mem_cons_of_mem _ h)
    · simp only [upsertRecord, if_neg hk, List.mem_cons] at h
      rcases h with h | h
      · exact Or.inr (h ▸ List.mem_cons_self _ _)
      · rcases ih h with h2 | h2
        · exact Or.inl h2
        · exact Or.inr (List.mem_cons_of_mem _ h2)

theorem upsertRecord_keys_pairwise {l : List Record} {r : Record}
    (h : l.Pairwise fun a b => a.Key ≠ b.Key) :
    (upsertRecord l r).Pairwise (fun a b => a.Key ≠ b.Key) := by
  induction l with
  | nil => simp [upsertRecord]
  | cons e rest ih =>
    rcases List.pairwise_cons.mp h with ⟨hhead, htail⟩
    by_cases hk : r.Key = e.Key
    · simp only [upsertRecord, if_pos hk, Record.Copy_eq]
      exact List.pairwise_cons.mpr ⟨fun b hb => hk ▸ hhead b hb, htail⟩
    · simp only [upsertRecord, if_neg hk]
      refine List.pairwise_cons.mpr ⟨fun b hb => ?_, ih htail⟩
      rcases mem_upsertRecord hb with h2 | h2
      · subst h2
        exact fun he => hk he.symm
      · exact hhead b h2

theorem upsertRecord_filter_eq {l : List Record} (r : Record)
    (h : l.Pairwise fun a b => a.Key ≠ b.Key) :
    (upsertRecord l r).filter (fun e => decide (e.Key = r.Key)) = [r] := by
  induction l with
  | nil => simp [upsertRecord]
  | cons e rest ih =>
    rcases List.pairwise_cons.mp h with ⟨hhead, htail⟩
    by_cases hk : r.Key = e.Key
    · simp only [upsertRecord, if_pos hk, Record.Copy_eq]
      have hrest : rest.filter (fun e => decide (e.Key = r.Key)) = [] := by
        apply List.filter_eq_nil_iff.mpr
        intro b hb
        simp only [decide_eq_true_eq]
        intro hbk
        exact hhead b hb (hk.symm.trans hbk.symm)
      simp [List.filter, hrest]
    · simp only [upsertRecord, if_neg hk]
      have hek : ¬ (e.Key = r.Key) := fun he => hk he.symm
      simp [List.filter, hek, ih htail]

theorem upsertRecord_filter_ne (l : List Record) (r : Record) :
    (upsertRecord l r).filter (fun e => !decide (e.Key = r.Key)) =
      l.filter (fun e => !decide (e.Key = r.Key)) := by
  induction l with
  | nil => simp [upsertRecord]
  | cons e rest ih =>
    by_cases hk : r.Key = e.Key
    · simp only [upsertRecord, if_pos hk, Record.Copy_eq]
      simp [List.filter, hk.symm]
    · have hek : ¬ (e.Key = r.Key) := fun he => hk he.symm
      simp only [upsertRecord, if_neg hk]
      simp [List.filter, hek, ih]

theorem upsertRecord_upsertRecord_same {l : List Record} {r1 r2 : Record}
    (hk : r1.Key = r2.Key) :
    upsertRecord (upsertRecord l r1) r2 = upsertRecord l r2 := by
  induction l with
  | nil => simp [upsertRecord, hk.symm]
  | cons e rest ih =>
    by_cases h1 : r1.Key = e.Key
    · have h2 : r2.Key = e.Key := hk ▸ h1
      simp only [upsertRecord, if_pos h1, Record.Copy_eq, if_pos h2]
      simp [upsertRecord, hk.symm]
    · have h2 : ¬ r2.Key = e.Key := fun h => h1 (hk ▸ h)
      simp only [upsertRecord, if_neg h1, if_neg h2, ih]

/-- C4: writing `(k,v1)` then `(k,v2)` to a slice store whose records have
pairwise distinct keys (the representation invariant of every store built
through the API) leaves exactly one record with key `k`, carrying `v2`, and
leaves the records with other keys unchanged. -/
theorem sliceStore_upsert_last_write_wins (s : SliceStore) (k v1 v2 : Bytes) (i1 i2 : Nat)
    (hdist : s.records.Pairwise fun a b => a.Key ≠ b.Key) :
    (((s.WriteRecord { Key := k, Value := v1, DatabaseIndex := i1 }).1.WriteRecord
        { Key := k, Value := v2, DatabaseIndex := i2 }).1.records.filter
          (fun e => decide (e.Key = k)) =
      [{ Key := k, Value := v2, DatabaseIndex := i2 }]) ∧
    ((s.WriteRecord { Key := k, Value := v1, DatabaseIndex := i1 }).1.WriteRecord
        { Key := k, Value := v2, DatabaseIndex := i2 }).1.records.filter
          (fun e => !decide (e.Key = k)) =
      s.records.filter (fun e => !decide (e.Key = k)) := by
  have hrec : ((s.WriteRecord { Key := k, Value := v1, DatabaseIndex := i1 }).1.WriteRecord
      { Key := k, Value := v2, DatabaseIndex := i2 }).1.records =
      upsertRecord s.records { Key := k, Value := v2, DatabaseIndex := i2 } := by
    simp only [SliceStore.WriteRecord]
    exact upsertRecord_upsertRecord_same rfl
  rw [hrec]
  constructor
  · exact upsertRecord_filter_eq { Key := k, Value := v2, DatabaseIndex := i2 } hdist
  · exact upsertRecord_filter_ne s.records { Key := k, Value := v2, DatabaseIndex := i2 }

/-- Witness for C4 at a concrete store and keys. -/
theorem sliceStore_upsert_last_write_wins_witness :
    (([({ Key := [0], Value := [9], DatabaseIndex := 0 } : Record)] : List Record).Pairwise
        fun a b => a.Key ≠ b.Key) ∧
    (((((SliceStore.mk [{ Key := [0], Value := [9], DatabaseIndex := 0 }] 0).WriteRecord
        { Key := [1], Value := [2], DatabaseIndex := 0 }).1.WriteRecord
        { Key := [1], Value := [3], DatabaseIndex := 0 }).1.records.filter
          (fun e => decide (e.Key = [1])) =
      [{ Key := [1], Value := [3], DatabaseIndex := 0 }]) ∧
    (((SliceStore.mk [{ Key := [0], Value := [9], DatabaseIndex := 0 }] 0).WriteRecord
        { Key := [1], Value := [2], DatabaseIndex := 0 }).1.WriteRecord
        { Key := [1], Value := [3], DatabaseIndex := 0 }).1.records.filter
          (fun e => !decide (e.Key = [1])) =
      (SliceStore.mk [{ Key := [0], Value := [9], DatabaseIndex := 0 }] 0).records.filter
          (fun e => !decide (e.Key = [1]))) :=
  ⟨by decide,
   sliceStore_upsert_last_write_wins
     (SliceStore.mk [{ Key := [0], Value := [9], DatabaseIndex := 0 }] 0)
     [1] [2] [3] 0 0 (by decide)⟩

theorem sliceStore_readRecord_at (l : List Record) (k : Nat) :
    SliceStore.ReadRecord { records := l, cursor := (k : Int) - 1 } =
      ({ records := l, cursor := (k : Int) }, (l.get? k).map Record.Copy, none) := by
  simp only [SliceStore.ReadRecord]
  have hc : (k : Int) - 1 + 1 = (k : Int) := by ring
  rw [hc]
  split
  case isTrue h =>
    have hlen : l.length ≤ k := by exact_mod_cast h
    simp [List.get?_eq_none.mpr hlen, List.getElem?_eq_none hlen]
  case isFalse h =>
    have hk : k < l.length := by
      by_contra hcon
      exact h (by exact_mod_cast Nat.le_of_not_lt hcon)
    simp [Int.toNat_natCast]

theorem sliceStore_readAll_drop (l : List Record) (fuel : Nat) :
    ∀ k : Nat, l.length ≤ k + fuel →
    SliceStore.readAll fuel { records := l, cursor := (k : Int) - 1 } = l.drop k := by
  induction fuel with
  | zero =>
    intro k h
    simp only [SliceStore.readAll]
    exact (List.drop_eq_nil_of_le (by omega)).symm
  | succ fuel ih =>
    intro k h
    rw [SliceStore.readAll, sliceStore_readRecord_at]
    cases hg : l.get? k with
    | none =>
      have hlen : l.length ≤ k := List.get?_eq_none.mp hg
      simp [List.drop_eq_nil_of_le hlen]
    | some r =>
      have hk : k < l.length := by
        by_contra hcon
        rw [List.get?_eq_none.mpr (Nat.le_of_not_lt hcon)] at hg
        exact absurd hg (by simp)
      have hr : l[k] = r := by
        have := List.get?_eq_getElem? l k
        rw [this, List.getElem?_eq_getElem hk] at hg
        exact Option.some.inj hg
      have hstep : ({ records := l, cursor := (k : Int) } : SliceStore) =
          { records := l, cursor := ((k + 1 : Nat) : Int) - 1 } := by
        have hcast : (k : Int) = ((k + 1 : Nat) : Int) - 1 := by push_cast; ring
        rw [hcast]
      show r :: SliceStore.readAll fuel { records := l, cursor := (k : Int) } = l.drop k
      rw [hstep, ih (k + 1) (by omega), List.drop_eq_getElem_cons hk, hr]

/-- Apply a list of writes in order, Go client code calling `WriteRecord` repeatedly. -/
def SliceStore.writeAll (s : SliceStore) (ws : List Record) : SliceStore :=
  ws.foldl (fun t r => (t.WriteRecord r).1) s

theorem writeAll_keys_pairwise (ws : List Record) :
    ∀ s : SliceStore, (s.records.Pairwise fun a b => a.Key ≠ b.Key) →
    ((s.writeAll ws).records.Pairwise fun a b => a.Key ≠ b.Key) := by
  induction ws with
  | nil => intro s h; exact h
  | cons w rest ih =>
    intro s h
    exact ih (s.WriteRecord w).1 (upsertRecord_keys_pairwise h)

theorem pairwise_and_of {α : Type} {R S : α → α → Prop} :
    ∀ {l : List α}, l.Pairwise R → l.Pairwise S →
      l.Pairwise fun a b => R a b ∧ S a b := by
  intro l h1 h2
  induction h1 with
  | nil => exact List.Pairwise.nil
  | cons hh _ ih =>
    rcases List.pairwise_cons.mp h2 with ⟨h2h, h2t⟩
    exact List.pairwise_cons.mpr ⟨fun b hb => ⟨hh b hb, h2h b hb⟩, ih h2t⟩

/-- C3: starting from the Go zero-value slice store, after any sequence of
`WriteRecord` calls, a read session (`BeginReading` then successive
`ReadRecord` up to the end-of-stream sentinel) delivers records whose keys
are pairwise strictly ascending — in particular each key appears at most
once. -/
theorem sliceStore_read_session_strictly_ascending (ws : List Record) :
    ((((SliceStore.init.writeAll ws).BeginReading).1.readAll
        (((SliceStore.init.writeAll ws).BeginReading).1.records.length + 1)).map
      Record.Key).Pairwise kLT := by
  have hbegin : ((SliceStore.init.writeAll ws).BeginReading).1 =
      { records := List.insertionSort keyLE (SliceStore.init.writeAll ws).records,
        cursor := ((0 : Nat) : Int) - 1 } := by
    simp [SliceStore.BeginReading]
  rw [hbegin]
  rw [sliceStore_readAll_drop _ _ 0 (by simp)]
  rw [List.drop_zero]
  have hsorted : (List.insertionSort keyLE (SliceStore.init.writeAll ws).records).Pairwise
      keyLE := List.sorted_insertionSort keyLE (SliceStore.init.writeAll ws).records
  have hne : ((SliceStore.init.writeAll ws).records.Pairwise fun a b => a.Key ≠ b.Key) :=
    writeAll_keys_pairwise ws SliceStore.init (by simp [SliceStore.init])
  have hne2 : (List.insertionSort keyLE (SliceStore.init.writeAll ws).records).Pairwise
      fun a b => a.Key ≠ b.Key :=
    hne.perm (List.perm_insertionSort keyLE _).symm (fun h he => h he.symm)
  apply List.pairwise_map.mpr
  apply (pairwise_and_of hsorted hne2).imp
  intro a b hab
  rcases kLE_iff.mp hab.1 with h | h
  · exact h
  · exact absurd h hab.2

theorem seekSteps_le_length (l : List Record) (k : Bytes) : seekSteps l k ≤ l.length := by
  induction l with
  | nil => simp [seekSteps]
  | cons e rest ih =>
    simp only [seekSteps]
    split
    · simpa using ih
    · simp

theorem seekSteps_prefix_lt (l : List Record) (k : Bytes) :
    ∀ j, j < seekSteps l k → ∀ r, l.get? j = some r → kLT r.Key k := by
  induction l with
  | nil => intro j hj; simp [seekSteps] at hj
  | cons e rest ih =>
    intro j hj r hr
    by_cases he : bytesCompare e.Key k = Ordering.lt
    · simp only [seekSteps, if_pos he] at hj
      cases j with
      | zero =>
        simp only [List.get?_cons_zero] at hr
        cases Option.some.inj hr
        exact he
      | succ j =>
        simp only [List.get?_cons_succ] at hr
        exact ih j (by omega) r hr
    · simp only [seekSteps, if_neg he] at hj
      omega

theorem seekSteps_at_not_lt (l : List Record) (k : Bytes) :
    ∀ r, l.get? (seekSteps l k) = some r → ¬ kLT r.Key k := by
  induction l with
  | nil => intro r hr; simp at hr
  | cons e rest ih =>
    intro r hr
    by_cases he : bytesCompare e.Key k = Ordering.lt
    · simp only [seekSteps, if_pos he, List.get?_cons_succ] at hr
      exact ih r hr
    · simp only [seekSteps, if_neg he, List.get?_cons_zero] at hr
      cases Option.some.inj hr
      exact he

/-- C5: in a read session (records sorted strictly ascending by key), after
`Seek k` the next `ReadRecord` returns the record with the smallest stored
key that is greater than or equal to `k`, and returns the end-of-stream
sentinel exactly when every stored key is below `k`. -/
theorem sliceStore_seek_reads_least_geq (s : SliceStore) (k : Bytes)
    (hsorted : s.records.Pairwise fun a b => kLT a.Key b.Key) :
    (∀ r, ((s.Seek k).1.ReadRecord).2.1 = some r →
        r ∈ s.records ∧ kLE k r.Key ∧
        ∀ e ∈ s.records, kLE k e.Key → kLE r.Key e.Key) ∧
    (((s.Seek k).1.ReadRecord).2.1 = none → ∀ e ∈ s.records, kLT e.Key k) := by
  have hres : ((s.Seek k).1.ReadRecord).2.1 =
      (s.records.get? (seekSteps s.records k)).map Record.Copy := by
    have hseek : (s.Seek k).1 =
        { records := s.records, cursor := ((seekSteps s.records k : Nat) : Int) - 1 } := rfl
    rw [hseek, sliceStore_readRecord_at]
  rw [hres]
  constructor
  · intro r hr
    have hg : s.records.get? (seekSteps s.records k) = some r := by
      cases hgg : s.records.get? (seekSteps s.records k) with
      | none => rw [hgg] at hr; simp at hr
      | some e => rw [hgg] at hr; simpa using hr
    refine ⟨List.get?_mem hg, kLE_of_not_kLT (seekSteps_at_not_lt _ _ r hg), ?_⟩
    intro e he hke
    rcases List.get?_of_mem he with ⟨j, hj⟩
    have hjlen : j < s.records.length := by
      rcases List.get?_eq_some.mp hj with ⟨hl, _⟩
      exact hl
    have hnlen : seekSteps s.records k < s.records.length := by
      rcases List.get?_eq_some.mp hg with ⟨hl, _⟩
      exact hl
    rcases Nat.lt_trichotomy j (seekSteps s.records k) with hlt | heq | hgt
    · exact absurd (kLT_of_kLT_of_kLE (seekSteps_prefix_lt _ _ j hlt e hj) hke)
        (kLT_irrefl _)
    · rw [heq, hg] at hj
      cases Option.some.inj hj
      exact kLE_iff.mpr (Or.inr rfl)
    · have hpair := List.pairwise_iff_get.mp hsorted ⟨seekSteps s.records k, hnlen⟩ ⟨j, hjlen⟩ hgt
      have hrget : s.records.get ⟨seekSteps s.records k, hnlen⟩ = r := by
        rcases List.get?_eq_some.mp hg with ⟨_, hgg⟩
        exact hgg
      have heget : s.records.get ⟨j, hjlen⟩ = e := by
        rcases List.get?_eq_some.mp hj with ⟨_, hgg⟩
        exact hgg
      rw [hrget, heget] at hpair
      exact kLE_iff.mpr (Or.inl hpair)
  · intro hnone e he
    have hg : s.records.get? (seekSteps s.records k) = none := by
      cases hgg : s.records.get? (seekSteps s.records k) with
      | none => rfl
      | some x => rw [hgg] at hnone; simp at hnone
    have hlen : s.records.length ≤ seekSteps s.records k := List.get?_eq_none.mp hg
    have heq : seekSteps s.records k = s.records.length :=
      Nat.le_antisymm (seekSteps_le_length _ _) hlen
    rcases List.get?_of_mem he with ⟨j, hj⟩
    have hjlen : j < s.records.length := by
      rcases List.get?_eq_some.mp hj with ⟨hl, _⟩
      exact hl
    exact seekSteps_prefix_lt _ _ j (by omega) e hj

/-- Witness for C5: the store with keys a,b,c,d,e from the seek example;
after seeking "c" the reads yield keys c,d,e. -/
theorem sliceStore_seek_reads_least_geq_witness :
    (([{ Key := [97], Value := [120], DatabaseIndex := 0 },
       { Key := [98], Value := [121], DatabaseIndex := 0 },
       { Key := [99], Value := [122], DatabaseIndex := 0 },
       { Key := [100], Value := [121], DatabaseIndex := 0 },
       { Key := [101], Value := [120], DatabaseIndex := 0 }] : List Record).Pairwise
        fun a b => kLT a.Key b.Key) ∧
    ((∀ r, (((SliceStore.mk [{ Key := [97], Value := [120], DatabaseIndex := 0 },
       { Key := [98], Value := [121], DatabaseIndex := 0 },
       { Key := [99], Value := [122], DatabaseIndex := 0 },
       { Key := [100], Value := [121], DatabaseIndex := 0 },
       { Key := [101], Value := [120], DatabaseIndex := 0 }] (-1)).Seek
          [99]).1.ReadRecord).2.1 = some r →
        r ∈ (SliceStore.mk [{ Key := [97], Value := [120], DatabaseIndex := 0 },
       { Key := [98], Value := [121], DatabaseIndex := 0 },
       { Key := [99], Value := [122], DatabaseIndex := 0 },
       { Key := [100], Value := [121], DatabaseIndex := 0 },
       { Key := [101], Value := [120], DatabaseIndex := 0 }] (-1)).records ∧
        kLE [99] r.Key ∧
        ∀ e ∈ (SliceStore.mk [{ Key := [97], Value := [120], DatabaseIndex := 0 },
       { Key := [98], Value := [121], DatabaseIndex := 0 },
       { Key := [99], Value := [122], DatabaseIndex := 0 },
       { Key := [100], Value := [121], DatabaseIndex := 0 },
       { Key := [101], Value := [120], DatabaseIndex := 0 }] (-1)).records,
          kLE [99] e.Key → kLE r.Key e.Key) ∧
      ((((SliceStore.mk [{ Key := [97], Value := [120], DatabaseIndex := 0 },
       { Key := [98], Value := [121], DatabaseIndex := 0 },
       { Key := [99], Value := [122], DatabaseIndex := 0 },
       { Key := [100], Value := [121], DatabaseIndex := 0 },
       { Key := [101], Value := [120], DatabaseIndex := 0 }] (-1)).Seek
          [99]).1.ReadRecord).2.1 = none →
        ∀ e ∈ (SliceStore.mk [{ Key := [97], Value := [120], DatabaseIndex := 0 },
       { Key := [98], Value := [121], DatabaseIndex := 0 },
       { Key := [99], Value := [122], DatabaseIndex := 0 },
       { Key := [100], Value := [121], DatabaseIndex := 0 },
       { Key := [101], Value := [120], DatabaseIndex := 0 }] (-1)).records,
          kLT e.Key [99])) ∧
    (((SliceStore.mk [{ Key := [97], Value := [120], DatabaseIndex := 0 },
       { Key := [98], Value := [121], DatabaseIndex := 0 },
       { Key := [99], Value := [122], DatabaseIndex := 0 },
       { Key := [100], Value := [121], DatabaseIndex := 0 },
       { Key := [101], Value := [120], DatabaseIndex := 0 }] (-1)).Seek
        [99]).1.readAll 6).map Record.Key = [[99], [100], [101]] :=
  ⟨by decide,
   sliceStore_seek_reads_least_geq
     (SliceStore.mk [{ Key := [97], Value := [120], DatabaseIndex := 0 },
       { Key := [98], Value := [121], DatabaseIndex := 0 },
       { Key := [99], Value := [122], DatabaseIndex := 0 },
       { Key := [100], Value := [121], DatabaseIndex := 0 },
       { Key := [101], Value := [120], DatabaseIndex := 0 }] (-1)) [99] (by decide),
   by decide⟩

/-- One call against a `SliceStore`, for reasoning about call sequences. -/
inductive SliceOp where
  | beginReading : SliceOp
  | readRecord : SliceOp
  | endReading : SliceOp
  | beginWriting : SliceOp
  | writeRecord : Record → SliceOp
  | endWriting : SliceOp
  | deleteAllRecords : SliceOp
  | seek : Bytes → SliceOp
deriving DecidableEq

/-- State after one call (outputs discarded). -/
def SliceStore.applyOp (s : SliceStore) : SliceOp → SliceStore
  | SliceOp.beginReading => (s.BeginReading).1
  | SliceOp.readRecord => (s.ReadRecord).1
  | SliceOp.endReading => (s.EndReading).1
  | SliceOp.beginWriting => (s.BeginWriting).1
  | SliceOp.writeRecord r => (s.WriteRecord r).1
  | SliceOp.endWriting => (s.EndWriting).1
  | SliceOp.deleteAllRecords => (s.DeleteAllRecords).1
  | SliceOp.seek k => (s.Seek k).1

/-- State after a sequence of calls. -/
def SliceStore.applyOps (s : SliceStore) (ops : List SliceOp) : SliceStore :=
  ops.foldl SliceStore.applyOp s

/-- Calls that cannot bring the slice-store cursor back in front of a record:
everything except `BeginReading`, `Seek` and `WriteRecord`. -/
def SliceOp.keepsEos : SliceOp → Bool
  | SliceOp.beginReading => false
  | SliceOp.seek _ => false
  | SliceOp.writeRecord _ => false
  | _ => true

theorem sliceStore_readRecord_state (s : SliceStore) :
    (s.ReadRecord).1 = { s with cursor := s.cursor + 1 } := by
  simp only [SliceStore.ReadRecord]
  split <;> rfl

/-- End-of-stream invariant: the cursor sits at or past the last record, or
the store is empty. -/
def eosState (s : SliceStore) : Prop :=
  (s.records.length : Int) ≤ s.cursor ∨ s.records = []

theorem eosState_readRecord_none {s : SliceStore} (h : eosState s) :
    (s.ReadRecord).2.1 = none := by
  rcases h with h | h
  · simp only [SliceStore.ReadRecord]
    rw [if_pos (by omega)]
  · simp only [SliceStore.ReadRecord]
    split
    · rfl
    · simp [h]

theorem eosState_of_readRecord_none {s : SliceStore} (h : (s.ReadRecord).2.1 = none) :
    eosState (s.ReadRecord).1 := by
  by_cases hrec : s.records = []
  · exact Or.inr (by rw [sliceStore_readRecord_state]; exact hrec)
  · left
    rw [sliceStore_readRecord_state]
    simp only [SliceStore.ReadRecord] at h
    by_cases hc : s.cursor + 1 ≥ (s.records.length : Int)
    · simpa using hc
    · rw [if_neg hc] at h
      simp only at h
      exfalso
      have hlen : 0 < s.records.length := List.length_pos.mpr hrec
      have hlt : (s.cursor + 1).toNat < s.records.length := by omega
      rw [List.get?_eq_get hlt] at h
      simp at h

theorem eosState_applyOp {s : SliceStore} {op : SliceOp}
    (hop : op.keepsEos = true) (h : eosState s) : eosState (s.applyOp op) := by
  cases op with
  | beginReading => simp [SliceOp.keepsEos] at hop
  | seek _ => simp [SliceOp.keepsEos] at hop
  | writeRecord _ => simp [SliceOp.keepsEos] at hop
  | readRecord =>
    rcases h with h | h
    · left
      rw [SliceStore.applyOp, sliceStore_readRecord_state]
      simp only
      omega
    · right
      rw [SliceStore.applyOp, sliceStore_readRecord_state]
      exact h
  | endReading => exact h
  | beginWriting => exact h
  | endWriting => exact h
  | deleteAllRecords =>
    right
    rfl

theorem eosState_applyOps {ops : List SliceOp} :
    ∀ {s : SliceStore}, (∀ op ∈ ops, op.keepsEos = true) → eosState s →
      eosState (s.applyOps ops) := by
  induction ops with
  | nil => intro s _ h; exact h
  | cons op rest ih =>
    intro s hops h
    exact ih (fun o ho => hops o (List.mem_cons_of_mem _ ho))
      (eosState_applyOp (hops op (List.mem_cons_self _ _)) h)

/-- C10 (amended): every `SliceStore` operation returns a nil error, and once
`ReadRecord` has returned the end-of-stream sentinel, every later
`ReadRecord` with no intervening `BeginReading`, `Seek` or `WriteRecord`
also returns end-of-stream. -/
theorem sliceStore_nil_errors_and_eos_sticky :
    (∀ (s : SliceStore) (r : Record) (k : Bytes),
        (s.BeginReading).2 = none ∧ (s.ReadRecord).2.2 = none ∧
        (s.EndReading).2 = none ∧ (s.BeginWriting).2 = none ∧
        (s.WriteRecord r).2 = none ∧ (s.EndWriting).2 = none ∧
        (s.DeleteAllRecords).2 = none ∧ (s.Seek k).2 = none) ∧
    (∀ (s : SliceStore) (ops : List SliceOp),
        (s.ReadRecord).2.1 = none → (∀ op ∈ ops, op.keepsEos = true) →
        (((s.ReadRecord).1.applyOps ops).ReadRecord).2.1 = none) := by
  constructor
  · intro s r k
    refine ⟨rfl, ?_, rfl, rfl, rfl, rfl, rfl, rfl⟩
    simp only [SliceStore.ReadRecord]
    split <;> rfl
  · intro s ops hnone hops
    exact eosState_readRecord_none (eosState_applyOps hops (eosState_of_readRecord_none hnone))

/-- Witness for C10 at a concrete store and call sequence. -/
theorem sliceStore_nil_errors_and_eos_sticky_witness :
    ((SliceStore.init.ReadRecord).2.1 = none) ∧
    (∀ op ∈ [SliceOp.deleteAllRecords, SliceOp.readRecord, SliceOp.endReading],
        SliceOp.keepsEos op = true) ∧
    ((((SliceStore.init.ReadRecord).1.applyOps
        [SliceOp.deleteAllRecords, SliceOp.readRecord, SliceOp.endReading]).ReadRecord).2.1 =
      none) :=
  ⟨by decide, by decide,
   sliceStore_nil_errors_and_eos_sticky.2 SliceStore.init
     [SliceOp.deleteAllRecords, SliceOp.readRecord, SliceOp.endReading]
     (by decide) (by decide)⟩

/-- Counterexample to C10 as stated: `WriteRecord` is not among the excluded
intervening calls, yet after end-of-stream two writes make the next
`ReadRecord` return a record again. -/
theorem sliceStore_eos_not_sticky_counterexample :
    (((SliceStore.init.BeginReading).1.ReadRecord).2.1 = none) ∧
    ((((((SliceStore.init.BeginReading).1.ReadRecord).1.WriteRecord
        { Key := [0], Value := [0], DatabaseIndex := 0 }).1.WriteRecord
        { Key := [1], Value := [1], DatabaseIndex := 0 }).1.ReadRecord).2.1 =
      some { Key := [1], Value := [1], DatabaseIndex := 0 }) := by
  decide

/-- LevelDB-backed store, Go `LevelDbStore` (src/store/leveldb.go), with the
external levigo engine abstracted: `db` is the database contents, `dbOpen`
models a non-nil database handle, `readActive` and `writeActive` model the
non-nilness of `readOptions` and `writeOptions`, `readIterator` is the
record sequence at and after the read iterator's position, and `itErr` is
the iterator's recorded I/O fault (`GetError`).  Operations that would panic
or dereference a nil handle in Go return `none`; `levigo.Open` is assumed to
succeed (open failures are environmental). -/
structure LevelDbStore where
  db : List Record
  dbOpen : Bool
  readActive : Bool
  writeActive : Bool
  readIterator : List Record
  itErr : Option String
deriving DecidableEq, Repr

/-- Store as built by `NewLevelDbStore` over a database with the given
contents: no handle and no session yet. -/
def LevelDbStore.fresh (contents : List Record) : LevelDbStore :=
  { db := contents, dbOpen := false, readActive := false, writeActive := false,
    readIterator := [], itErr := none }

/-- Model of `openDatabase`: a no-op when either session is already active
(the handle is already open), otherwise opens the handle. -/
def LevelDbStore.openDatabase (s : LevelDbStore) : LevelDbStore :=
  if s.readActive || s.writeActive then s else { s with dbOpen := true }

/-- Model of `closeDatabase`: a no-op when both sessions are still active at
the time of the call, otherwise closes the handle. -/
def LevelDbStore.closeDatabase (s : LevelDbStore) : LevelDbStore :=
  if s.readActive && s.writeActive then s else { s with dbOpen := false }

/-- Model of `LevelDbStore.BeginReading`: panics (`none`) when a read session
is already open; otherwise opens the database if needed and positions a
fresh iterator at the first record (LevelDB iterates in ascending key
order). -/
def LevelDbStore.BeginReading (s : LevelDbStore) : Option LevelDbStore :=
  if s.readActive then none
  else
    let s1 := s.openDatabase
    some { s1 with
           readActive := true,
           readIterator := List.insertionSort keyLE s.db,
           itErr := none }

/-- Model of `LevelDbStore.ReadRecord`: `none` outside a read session (nil
iterator dereference in Go).  With a valid iterator position it returns the
record there (Go builds the record from `Key()` and `Value()` only, so the
`DatabaseIndex` is the zero value) and advances; when the iterator is
invalid it returns the nil record together with `GetError()`. -/
def LevelDbStore.ReadRecord (s : LevelDbStore) :
    Option (LevelDbStore × Option Record × Option String) :=
  if s.readActive = false then none
  else
    match s.readIterator, s.itErr with
    | r :: rest, none =>
      some ({ s with readIterator := rest },
            some { Key := r.Key, Value := r.Value, DatabaseIndex := 0 }, none)
    | _, _ => some (s, none, s.itErr)

/-- Model of `LevelDbStore.EndReading`: closes the read options and iterator,
then `closeDatabase` (with `readOptions` still non-nil at that point), then
clears the session flag; `none` outside a read session (nil dereference). -/
def LevelDbStore.EndReading (s : LevelDbStore) : Option LevelDbStore :=
  if s.readActive = false then none
  else
    let s1 := s.closeDatabase
    some { s1 with readActive := false, readIterator := [] }

/-- Model of `LevelDbStore.BeginWriting`: panics (`none`) when a write
session is already open; otherwise opens the database if needed. -/
def LevelDbStore.BeginWriting (s : LevelDbStore) : Option LevelDbStore :=
  if s.writeActive then none
  else
    let s1 := s.openDatabase
    some { s1 with writeActive := true }

/-- Model of `LevelDbStore.WriteRecord`: a LevelDB `Put`, an upsert by key;
`none` outside a write session (nil write-options dereference). -/
def LevelDbStore.WriteRecord (s : LevelDbStore) (r : Record) : Option LevelDbStore :=
  if s.writeActive = false then none
  else some { s with db := upsertRecord s.db r }

/-- Model of `LevelDbStore.EndWriting`: closes the write options, then
`closeDatabase` (with `writeOptions` still non-nil at that point), then
clears the session flag; `none` outside a write session. -/
def LevelDbStore.EndWriting (s : LevelDbStore) : Option LevelDbStore :=
  if s.writeActive = false then none
  else
    let s1 := s.closeDatabase
    some { s1 with writeActive := false }

/-- Model of `LevelDbStore.Seek`: explicit panic outside a read session;
otherwise repositions the iterator at the first key that is not below the
target. -/
def LevelDbStore.Seek (s : LevelDbStore) (k : Bytes) : Option LevelDbStore :=
  if s.readActive = false then none
  else some { s with readIterator :=
    (List.insertionSort keyLE s.db).dropWhile (fun r => decide (kLT r.Key k)) }

/-- Model of `LevelDbStore.DeleteAllRecords`: explicit panic when neither a
read nor a write session is open; otherwise iterates the database and
deletes every key. -/
def LevelDbStore.DeleteAllRecords (s : LevelDbStore) : Option LevelDbStore :=
  if !s.readActive && !s.writeActive then none
  else some { s with db := [] }

/-- One call against a `LevelDbStore`. -/
inductive DbOp where
  | beginReading : DbOp
  | endReading : DbOp
  | beginWriting : DbOp
  | endWriting : DbOp
  | readRecord : DbOp
  | writeRecord : Record → DbOp
  | deleteAllRecords : DbOp
  | seek : Bytes → DbOp
deriving DecidableEq

/-- State after one call; `none` means the call panicked. -/
def LevelDbStore.stepOp (s : LevelDbStore) : DbOp → Option LevelDbStore
  | DbOp.beginReading => s.BeginReading
  | DbOp.endReading => s.EndReading
  | DbOp.beginWriting => s.BeginWriting
  | DbOp.endWriting => s.EndWriting
  | DbOp.readRecord => (s.ReadRecord).map (fun p => p.1)
  | DbOp.writeRecord r => s.WriteRecord r
  | DbOp.deleteAllRecords => s.DeleteAllRecords
  | DbOp.seek k => s.Seek k

/-- State after a sequence of calls, `none` as soon as one panics. -/
def LevelDbStore.runOps (s : LevelDbStore) : List DbOp → Option LevelDbStore
  | [] => some s
  | op :: rest =>
    match s.stepOp op with
    | none => none
    | some s1 => s1.runOps rest

theorem levelDb_readRecord_fields (s : LevelDbStore)
    {p : LevelDbStore × Option Record × Option String} (h : s.ReadRecord = some p) :
    p.1.dbOpen = s.dbOpen ∧ p.1.readActive = s.readActive ∧
      p.1.writeActive = s.writeActive := by
  simp only [LevelDbStore.ReadRecord] at h
  split at h
  · exact absurd h (by simp)
  · rcases hit : s.readIterator with _ | ⟨r, rest⟩ <;>
      rcases herr : s.itErr with _ | e <;>
        rw [hit, herr] at h <;>
          (cases Option.some.inj h; simp)

theorem levelDb_stepOp_dbOpen_inv {s s1 : LevelDbStore} {op : DbOp}
    (hinv : s.dbOpen = (s.readActive || s.writeActive))
    (hstep : s.stepOp op = some s1) :
    s1.dbOpen = (s1.readActive || s1.writeActive) := by
  cases op with
  | readRecord =>
    simp only [LevelDbStore.stepOp] at hstep
    cases hrr : s.ReadRecord with
    | none => rw [hrr] at hstep; simp at hstep
    | some p =>
      rw [hrr] at hstep
      have heq : p.1 = s1 := by simpa using hstep
      rw [← heq]
      rcases levelDb_readRecord_fields s hrr with ⟨h1, h2, h3⟩
      rw [h1, h2, h3]
      exact hinv
  | beginReading =>
    cases hra : s.readActive <;> cases hwa : s.writeActive <;>
      simp [LevelDbStore.stepOp, LevelDbStore.BeginReading, LevelDbStore.openDatabase,
        hra, hwa] at hstep <;>
      (subst hstep; simp [hinv, hra, hwa])
  | endReading =>
    cases hra : s.readActive <;> cases hwa : s.writeActive <;>
      simp [LevelDbStore.stepOp, LevelDbStore.EndReading, LevelDbStore.closeDatabase,
        hra, hwa] at hstep <;>
      (subst hstep; simp [hinv, hra, hwa])
  | beginWriting =>
    cases hra : s.readActive <;> cases hwa : s.writeActive <;>
      simp [LevelDbStore.stepOp, LevelDbStore.BeginWriting, LevelDbStore.openDatabase,
        hra, hwa] at hstep <;>
      (subst hstep; simp [hinv, hra, hwa])
  | endWriting =>
    cases hra : s.readActive <;> cases hwa : s.writeActive <;>
      simp [LevelDbStore.stepOp, LevelDbStore.EndWriting, LevelDbStore.closeDatabase,
        hra, hwa] at hstep <;>
      (subst hstep; simp [hinv, hra, hwa])
  | writeRecord r =>
    cases hwa : s.writeActive <;>
      simp [LevelDbStore.stepOp, LevelDbStore.WriteRecord, hwa] at hstep <;>
      (subst hstep; simp [hinv, hwa])
  | deleteAllRecords =>
    cases hra : s.readActive <;> cases hwa : s.writeActive <;>
      simp [LevelDbStore.stepOp, LevelDbStore.DeleteAllRecords, hra, hwa] at hstep <;>
      (subst hstep; simp [hinv, hra, hwa])
  | seek k =>
    cases hra : s.readActive <;>
      simp [LevelDbStore.stepOp, LevelDbStore.Seek, hra] at hstep <;>
      (subst hstep; simp [hinv, hra])

theorem levelDb_runOps_dbOpen_inv (ops : List DbOp) :
    ∀ {s s1 : LevelDbStore}, s.dbOpen = (s.readActive || s.writeActive) →
      s.runOps ops = some s1 → s1.dbOpen = (s1.readActive || s1.writeActive) := by
  induction ops with
  | nil =>
    intro s s1 h hrun
    simp only [LevelDbStore.runOps] at hrun
    cases Option.some.inj hrun
    exact h
  | cons op rest ih =>
    intro s s1 h hrun
    simp only [LevelDbStore.runOps] at hrun
    cases hstep : s.stepOp op with
    | none => rw [hstep] at hrun; simp at hrun
    | some s2 =>
      rw [hstep] at hrun
      exact ih (levelDb_stepOp_dbOpen_inv h hstep) hrun

/-- C9: from a fresh `LevelDbStore` the database handle starts closed, and
along every panic-free call sequence it is open exactly while at least one
session (read or write) is active — so it is opened lazily at the first
`BeginReading` or `BeginWriting` and closed exactly when the last active
session ends. -/
theorem levelDb_handle_open_iff_session_active (contents : List Record) :
    (LevelDbStore.fresh contents).dbOpen = false ∧
    ∀ (ops : List DbOp) (s : LevelDbStore),
      (LevelDbStore.fresh contents).runOps ops = some s →
      s.dbOpen = (s.readActive || s.writeActive) :=
  ⟨rfl, fun ops s h => levelDb_runOps_dbOpen_inv ops rfl h⟩

/-- Witness for C9: a begin-read then begin-write then end-read run keeps
the handle open, matching the session flags at every step. -/
theorem levelDb_handle_open_iff_session_active_witness :
    ((LevelDbStore.fresh []).dbOpen = false) ∧
    ((LevelDbStore.fresh []).runOps [DbOp.beginReading, DbOp.beginWriting, DbOp.endReading] =
      some { db := [], dbOpen := true, readActive := false, writeActive := true,
             readIterator := [], itErr := none }) ∧
    (({ db := [], dbOpen := true, readActive := false, writeActive := true,
        readIterator := [], itErr := none } : LevelDbStore).dbOpen =
      (({ db := [], dbOpen := true, readActive := false, writeActive := true,
          readIterator := [], itErr := none } : LevelDbStore).readActive ||
       ({ db := [], dbOpen := true, readActive := false, writeActive := true,
          readIterator := [], itErr := none } : LevelDbStore).writeActive)) :=
  ⟨(levelDb_handle_open_iff_session_active []).1, by decide,
   (levelDb_handle_open_iff_session_active []).2
     [DbOp.beginReading, DbOp.beginWriting, DbOp.endReading]
     { db := [], dbOpen := true, readActive := false, writeActive := true,
       readIterator := [], itErr := none } (by decide)⟩

/-- C6: end-of-stream is never an error.  The slice store's `ReadRecord`
always returns a nil error; the LevelDB store's `ReadRecord` (inside a read
session) returns a nil error whenever the iterator has recorded no I/O
fault — with the nil record exactly at iterator exhaustion — and any
non-nil error it returns is the iterator's recorded I/O fault. -/
theorem readRecord_eos_is_nil_not_error :
    (∀ s : SliceStore, (s.ReadRecord).2.2 = none) ∧
    (∀ (t u : LevelDbStore) (rec : Option Record) (err : Option String),
        t.ReadRecord = some (u, rec, err) →
        (t.itErr = none → err = none ∧ (rec = none ↔ t.readIterator = [])) ∧
        (∀ e, err = some e → t.itErr = some e)) := by
  constructor
  · intro s
    simp only [SliceStore.ReadRecord]
    split <;> rfl
  · intro t u rec err h
    simp only [LevelDbStore.ReadRecord] at h
    split at h
    · exact absurd h (by simp)
    · rcases hit : t.readIterator with _ | ⟨r, rest⟩ <;>
        rcases herr : t.itErr with _ | e <;>
          rw [hit, herr] at h
      · simp at h
        obtain ⟨h1, h2, h3⟩ := h
        subst h1; subst h2; subst h3
        simp [hit, herr]
      · simp at h
        obtain ⟨h1, h2, h3⟩ := h
        subst h1; subst h2; subst h3
        simp [hit, herr]
      · simp at h
        obtain ⟨h1, h2, h3⟩ := h
        subst h1; subst h2; subst h3
        simp [hit, herr]
      · simp at h
        obtain ⟨h1, h2, h3⟩ := h
        subst h1; subst h2; subst h3
        simp [hit, herr]

/-- Witness for C6: a LevelDB store in a read session with one record and no
I/O fault; reading past the end returns the nil record with a nil error. -/
theorem readRecord_eos_is_nil_not_error_witness :
    (({ db := [], dbOpen := true, readActive := true, writeActive := false,
        readIterator := [], itErr := none } : LevelDbStore).ReadRecord =
      some ({ db := [], dbOpen := true, readActive := true, writeActive := false,
              readIterator := [], itErr := none }, none, none)) ∧
    ((({ db := [], dbOpen := true, readActive := true, writeActive := false,
         readIterator := [], itErr := none } : LevelDbStore).itErr = none →
        (none : Option String) = none ∧
        ((none : Option Record) = none ↔
          ({ db := [], dbOpen := true, readActive := true, writeActive := false,
             readIterator := [], itErr := none } : LevelDbStore).readIterator = [])) ∧
      (∀ e, (none : Option String) = some e →
        ({ db := [], dbOpen := true, readActive := true, writeActive := false,
           readIterator := [], itErr := none } : LevelDbStore).itErr = some e)) :=
  ⟨by decide,
   readRecord_eos_is_nil_not_error.2
     { db := [], dbOpen := true, readActive := true, writeActive := false,
       readIterator := [], itErr := none }
     { db := [], dbOpen := true, readActive := true, writeActive := false,
       readIterator := [], itErr := none }
     none none (by decide)⟩

/-- C7 (amended): on the LevelDB store a second `BeginReading` while a read
session is open, or a second `BeginWriting` while a write session is open,
panics; the slice store tracks no sessions at all, and its `BeginReading`
and `BeginWriting` always return normally with a nil error. -/
theorem double_begin_panic_leveldb_only :
    (∀ t : LevelDbStore,
        (t.BeginReading = none ↔ t.readActive = true) ∧
        (t.BeginWriting = none ↔ t.writeActive = true)) ∧
    (∀ s : SliceStore, (s.BeginReading).2 = none ∧ (s.BeginWriting).2 = none) := by
  constructor
  · intro t
    constructor
    · simp only [LevelDbStore.BeginReading]
      split
      · simp
        assumption
      · simp
        simp_all
    · simp only [LevelDbStore.BeginWriting]
      split
      · simp
        assumption
      · simp
        simp_all
  · intro s
    exact ⟨rfl, rfl⟩

/-- Counterexample to C7 as stated: on a `SliceStore` a second
`BeginReading` with the read session still open does not fail — it returns
normally with a nil error (the source tracks no session state). -/
theorem sliceStore_double_beginReading_succeeds :
    ((((SliceStore.init.WriteRecord
          { Key := [0], Value := [1], DatabaseIndex := 0 }).1.BeginReading).1.BeginReading).2 =
      none) ∧
    ((((SliceStore.init.WriteRecord
          { Key := [0], Value := [1], DatabaseIndex := 0 }).1.BeginReading).1.BeginReading).1 =
      { records := [{ Key := [0], Value := [1], DatabaseIndex := 0 }], cursor := -1 }) := by
  decide

/-- C8 (amended): on the LevelDB store `DeleteAllRecords` panics exactly when
neither a read nor a write session is open, and inside a session it leaves
the database empty; the slice store's `DeleteAllRecords` has no session
precondition — it always returns a nil error and empties the store. -/
theorem deleteAllRecords_session_behaviour :
    (∀ t : LevelDbStore,
        (t.DeleteAllRecords = none ↔ (t.readActive = false ∧ t.writeActive = false)) ∧
        (∀ u, t.DeleteAllRecords = some u → u.db = [])) ∧
    (∀ s : SliceStore,
        (s.DeleteAllRecords).2 = none ∧ (s.DeleteAllRecords).1.records = []) := by
  constructor
  · intro t
    constructor
    · simp only [LevelDbStore.DeleteAllRecords]
      split
      · simp_all
      · simp
        simp_all
    · intro u hu
      simp only [LevelDbStore.DeleteAllRecords] at hu
      split at hu
      · exact absurd hu (by simp)
      · rw [← Option.some.inj hu]
  · intro s
    exact ⟨rfl, rfl⟩

/-- Witness for C8: a LevelDB store inside a write session; deleting leaves
the database empty. -/
theorem deleteAllRecords_session_behaviour_witness :
    (({ db := [{ Key := [0], Value := [1], DatabaseIndex := 0 }], dbOpen := true,
        readActive := false, writeActive := true, readIterator := [],
        itErr := none } : LevelDbStore).DeleteAllRecords =
      some { db := [], dbOpen := true, readActive := false, writeActive := true,
             readIterator := [], itErr := none }) ∧
    (({ db := [], dbOpen := true, readActive := false, writeActive := true,
        readIterator := [], itErr := none } : LevelDbStore).db = []) :=
  ⟨by decide,
   (deleteAllRecords_session_behaviour.1
     { db := [{ Key := [0], Value := [1], DatabaseIndex := 0 }], dbOpen := true,
       readActive := false, writeActive := true, readIterator := [], itErr := none }).2
     { db := [], dbOpen := true, readActive := false, writeActive := true,
       readIterator := [], itErr := none } (by decide)⟩

/-- Counterexample to C8 as stated: on a `SliceStore` with no session open,
`DeleteAllRecords` does not fail — it returns normally with a nil error and
empties the store. -/
theorem sliceStore_deleteAll_without_session_succeeds :
    ((SliceStore.mk [{ Key := [0], Value := [1], DatabaseIndex := 0 }] 0).DeleteAllRecords).2 =
      none ∧
    ((SliceStore.mk [{ Key := [0], Value := [1], DatabaseIndex := 0 }] 0).DeleteAllRecords).1 =
      SliceStore.mk [] 0 := by
  decide

/-- Modelled from the spec: the exclusion-range pairing of
`ReadExcludingRanges`, whose implementation file is not under src/ (only its
example test is).  "The records of X are interpreted pairwise in their
sorted order: the first record's key is a range begin, the next is that
range's end-inclusive, and so on." -/
def rangePairs : List Bytes → List (Bytes × Bytes)
  | b :: e :: rest => (b, e) :: rangePairs rest
  | _ => []

/-- A key is covered by some closed interval of the list. -/
def coveredBy (k : Bytes) (ivs : List (Bytes × Bytes)) : Bool :=
  ivs.any (fun iv => decide (kLE iv.1 k) && decide (kLE k iv.2))

/-- Modelled from the spec: the interval-pointer advance of the exclusion
reader — "for each source record with key k, it advances the interval
pointer while k > e_i". -/
def exclAdvance (k : Bytes) (ivs : List (Bytes × Bytes)) : List (Bytes × Bytes) :=
  ivs.dropWhile (fun iv => decide (kLT iv.2 k))

/-- Modelled from the spec: the streaming loop of the exclusion reader —
after advancing the pointer it "skips the record iff b_i ≤ k ≤ e_i" (after
the advance, k ≤ e_i holds at the head, so the head test is b_i ≤ k). -/
def exclRun : List (Bytes × Bytes) → List Record → List Record
  | _, [] => []
  | ivs, r :: rs =>
    match exclAdvance r.Key ivs with
    | [] => r :: exclRun [] rs
    | (b, e) :: rest2 =>
      if kLE b r.Key then exclRun ((b, e) :: rest2) rs
      else r :: exclRun ((b, e) :: rest2) rs

/-- Modelled from the spec: `ReadExcludingRanges` over the record sequences
emitted by the source reader and the excluded-ranges reader. -/
def ReadExcludingRanges (source excluded : List Record) : List Record :=
  exclRun (rangePairs (excluded.map Record.Key)) source

/-- Well-formed interval lists: each begin at most its end, and successive
intervals strictly separated (end before the next begin). -/
def ivsSorted (ivs : List (Bytes × Bytes)) : Prop :=
  (∀ iv ∈ ivs, kLE iv.1 iv.2) ∧ ivs.Pairwise (fun i j => kLT i.2 j.1)

theorem rangePairs_mem : ∀ {l : List Bytes} {iv : Bytes × Bytes},
    iv ∈ rangePairs l → iv.1 ∈ l ∧ iv.2 ∈ l
  | [], _, h => by simp [rangePairs] at h
  | [_], _, h => by simp [rangePairs] at h
  | b :: e :: rest, iv, h => by
    simp only [rangePairs, List.mem_cons] at h
    rcases h with h | h
    · subst h
      exact ⟨List.mem_cons_self _ _, List.mem_cons_of_mem _ (List.mem_cons_self _ _)⟩
    · rcases rangePairs_mem h with ⟨h1, h2⟩
      exact ⟨List.mem_cons_of_mem _ (List.mem_cons_of_mem _ h1),
             List.mem_cons_of_mem _ (List.mem_cons_of_mem _ h2)⟩

theorem rangePairs_sorted : ∀ {l : List Bytes}, l.Pairwise kLT → ivsSorted (rangePairs l)
  | [], _ => ⟨by simp [rangePairs], by simp [rangePairs]⟩
  | [_], _ => ⟨by simp [rangePairs], by simp [rangePairs]⟩
  | b :: e :: rest, h => by
    rcases List.pairwise_cons.mp h with ⟨hb, h2⟩
    rcases List.pairwise_cons.mp h2 with ⟨he, h3⟩
    rcases rangePairs_sorted h3 with ⟨ih1, ih2⟩
    constructor
    · intro iv hiv
      simp only [rangePairs, List.mem_cons] at hiv
      rcases hiv with hiv | hiv
      · subst hiv
        exact kLE_iff.mpr (Or.inl (hb e (List.mem_cons_self _ _)))
      · exact ih1 iv hiv
    · simp only [rangePairs]
      refine List.pairwise_cons.mpr ⟨?_, ih2⟩
      intro iv hiv
      exact he iv.1 (rangePairs_mem hiv).1

theorem exclAdvance_coveredBy {k k2 : Bytes} (hk : kLE k k2) :
    ∀ (ivs : List (Bytes × Bytes)), coveredBy k2 (exclAdvance k ivs) = coveredBy k2 ivs := by
  intro ivs
  induction ivs with
  | nil => rfl
  | cons iv rest ih =>
    by_cases hdrop : kLT iv.2 k
    · have hstep : exclAdvance k (iv :: rest) = exclAdvance k rest := by
        simp [exclAdvance, List.dropWhile, hdrop]
      rw [hstep, ih]
      have hcov : (decide (kLE iv.1 k2) && decide (kLE k2 iv.2)) = false := by
        simp only [Bool.and_eq_false_iff, decide_eq_false_iff_not]
        right
        intro hle
        exact kLT_irrefl iv.2 (kLT_of_kLT_of_kLE (kLT_of_kLT_of_kLE hdrop hk) hle)
      simp [coveredBy, hcov]
    · have hstep : exclAdvance k (iv :: rest) = iv :: rest := by
        simp [exclAdvance, List.dropWhile, hdrop]
      rw [hstep]

theorem exclAdvance_sublist (k : Bytes) (ivs : List (Bytes × Bytes)) :
    (exclAdvance k ivs).Sublist ivs := List.dropWhile_sublist _

theorem dropWhile_head_false {α : Type} {p : α → Bool} :
    ∀ {l : List α} {x : α} {xs : List α}, l.dropWhile p = x :: xs → p x = false := by
  intro l
  induction l with
  | nil => intro x xs h; simp [List.dropWhile] at h
  | cons a rest ih =>
    intro x xs h
    by_cases ha : p a
    · rw [List.dropWhile_cons_of_pos ha] at h
      exact ih h
    · rw [List.dropWhile_cons_of_neg ha] at h
      cases h
      exact Bool.of_not_eq_true ha

theorem coveredBy_head_iff {k b e : Bytes} {rest2 : List (Bytes × Bytes)}
    (hhead : ¬ kLT e k)
    (hpair : ((b, e) :: rest2).Pairwise (fun i j => kLT i.2 j.1)) :
    coveredBy k ((b, e) :: rest2) = decide (kLE b k) := by
  rcases List.pairwise_cons.mp hpair with ⟨hsep, _⟩
  have hke : kLE k e := kLE_of_not_kLT hhead
  by_cases hb : kLE b k
  · have hh : (decide (kLE b k) && decide (kLE k e)) = true := by
      simp only [Bool.and_eq_true, decide_eq_true_eq]
      exact ⟨hb, hke⟩
    rw [show decide (kLE b k) = true by simp [hb]]
    simp only [coveredBy, List.any_cons, hh, Bool.true_or]
  · simp only [coveredBy, List.any_cons]
    have h1 : (decide (kLE b k) && decide (kLE k e)) = false := by
      simp only [Bool.and_eq_false_iff, decide_eq_false_iff_not]
      exact Or.inl hb
    rw [h1]
    simp only [Bool.false_or]
    have h2 : rest2.any (fun iv => decide (kLE iv.1 k) && decide (kLE k iv.2)) = false := by
      apply List.any_eq_false.mpr
      intro iv hiv
      simp only [Bool.and_eq_true, decide_eq_true_eq]
      intro hc
      obtain ⟨hle1, _⟩ := hc
      exact kLT_irrefl k (kLT_of_kLT_of_kLE (kLT_of_kLE_of_kLT hke (hsep iv hiv)) hle1)
    rw [h2]
    simp [hb]

theorem kLE_refl (a : Bytes) : kLE a a := kLE_iff.mpr (Or.inr rfl)

theorem exclRun_filter (rs : List Record) : ∀ (ivs : List (Bytes × Bytes)),
    ivsSorted ivs → ((rs.map Record.Key).Pairwise kLE) →
    exclRun ivs rs = rs.filter (fun r => !(coveredBy r.Key ivs)) := by
  induction rs with
  | nil => intro ivs _ _; simp [exclRun]
  | cons r rs ih =>
    intro ivs hsorted hasc
    have hasc0 : (r.Key :: rs.map Record.Key).Pairwise kLE := by simpa using hasc
    rcases List.pairwise_cons.mp hasc0 with ⟨hr_le0, hasc2pre⟩
    have hasc2 : (rs.map Record.Key).Pairwise kLE := hasc2pre
    have hr_le : ∀ r2 ∈ rs, kLE r.Key r2.Key := by
      intro r2 hr2
      exact hr_le0 r2.Key (List.mem_map_of_mem _ hr2)
    have hsorted2 : ivsSorted (exclAdvance r.Key ivs) :=
      ⟨fun iv hiv => hsorted.1 iv ((exclAdvance_sublist r.Key ivs).subset hiv),
       hsorted.2.sublist (exclAdvance_sublist r.Key ivs)⟩
    have hcongr : ∀ r2 ∈ rs,
        (!(coveredBy r2.Key (exclAdvance r.Key ivs))) = (!(coveredBy r2.Key ivs)) := by
      intro r2 h2
      rw [exclAdvance_coveredBy (hr_le r2 h2)]
    have hcov_head : coveredBy r.Key ivs = coveredBy r.Key (exclAdvance r.Key ivs) :=
      (exclAdvance_coveredBy (kLE_refl r.Key) ivs).symm
    cases hadv : exclAdvance r.Key ivs with
    | nil =>
      have hstep : exclRun ivs (r :: rs) = r :: exclRun [] rs := by
        simp only [exclRun]
        rw [hadv]
      have hcovr : (!(coveredBy r.Key ivs)) = true := by
        rw [hcov_head, hadv]
        rfl
      have hall : ∀ r2 ∈ rs, (!(coveredBy r2.Key ([] : List (Bytes × Bytes)))) =
          (!(coveredBy r2.Key ivs)) := by
        intro r2 h2
        rw [← hadv]
        exact hcongr r2 h2
      have hfc : List.filter (fun r2 => !(coveredBy r2.Key ivs)) (r :: rs) =
          r :: List.filter (fun r2 => !(coveredBy r2.Key ivs)) rs := by
        simp [List.filter_cons, hcovr]
      rw [hstep, hfc, ih [] ⟨by simp, by simp⟩ hasc2, List.filter_congr hall]
    | cons iv rest2 =>
      obtain ⟨b, e⟩ := iv
      have hhead : ¬ kLT e r.Key := by
        have := dropWhile_head_false hadv
        simpa using this
      have hpair2 : ((b, e) :: rest2).Pairwise (fun i j => kLT i.2 j.1) := by
        rw [← hadv]
        exact hsorted2.2
      have hcovhead : coveredBy r.Key ivs = decide (kLE b r.Key) := by
        rw [hcov_head, hadv]
        exact coveredBy_head_iff hhead hpair2
      have hsorted3 : ivsSorted ((b, e) :: rest2) := by
        rw [← hadv]
        exact hsorted2
      have hall : ∀ r2 ∈ rs, (!(coveredBy r2.Key ((b, e) :: rest2))) =
          (!(coveredBy r2.Key ivs)) := by
        intro r2 h2
        rw [← hadv]
        exact hcongr r2 h2
      have hmatch : exclRun ivs (r :: rs) =
          (if kLE b r.Key then exclRun ((b, e) :: rest2) rs
           else r :: exclRun ((b, e) :: rest2) rs) := by
        simp only [exclRun]
        rw [hadv]
      by_cases hble : kLE b r.Key
      · have hstep : exclRun ivs (r :: rs) = exclRun ((b, e) :: rest2) rs := by
          rw [hmatch, if_pos hble]
        have hcovr : (!(coveredBy r.Key ivs)) = false := by
          rw [hcovhead]
          simp [hble]
        have hfc : List.filter (fun r2 => !(coveredBy r2.Key ivs)) (r :: rs) =
            List.filter (fun r2 => !(coveredBy r2.Key ivs)) rs := by
          simp [List.filter_cons, hcovr]
        rw [hstep, hfc, ih ((b, e) :: rest2) hsorted3 hasc2, List.filter_congr hall]
      · have hstep : exclRun ivs (r :: rs) = r :: exclRun ((b, e) :: rest2) rs := by
          rw [hmatch, if_neg hble]
        have hcovr : (!(coveredBy r.Key ivs)) = true := by
          rw [hcovhead]
          simp [hble]
        have hfc : List.filter (fun r2 => !(coveredBy r2.Key ivs)) (r :: rs) =
            r :: List.filter (fun r2 => !(coveredBy r2.Key ivs)) rs := by
          simp [List.filter_cons, hcovr]
        rw [hstep, hfc, ih ((b, e) :: rest2) hsorted3 hasc2, List.filter_congr hall]

/-- C2: spec-modelled exclusion reader.  For a source reader whose keys
ascend and an even-length exclusion reader whose keys ascend strictly,
interpreted pairwise as closed intervals, the exclusion reader emits exactly
the source records whose key lies in no interval, in source order. -/
theorem readExcludingRanges_correct (source excluded : List Record)
    (hsrc : (source.map Record.Key).Pairwise kLE)
    (hexc : (excluded.map Record.Key).Pairwise kLT)
    (heven : excluded.length % 2 = 0) :
    ReadExcludingRanges source excluded =
      source.filter
        (fun r => !(coveredBy r.Key (rangePairs (excluded.map Record.Key)))) :=
  exclRun_filter source _ (rangePairs_sorted hexc) hsrc

/-- Source store of the exclusion example: keys a..h, j, k. -/
def exclDemoSource : List Record :=
  [{ Key := [97], Value := [120], DatabaseIndex := 0 },
   { Key := [98], Value := [121], DatabaseIndex := 0 },
   { Key := [99], Value := [122], DatabaseIndex := 0 },
   { Key := [100], Value := [121], DatabaseIndex := 0 },
   { Key := [101], Value := [120], DatabaseIndex := 0 },
   { Key := [102], Value := [97], DatabaseIndex := 0 },
   { Key := [103], Value := [98], DatabaseIndex := 0 },
   { Key := [104], Value := [99], DatabaseIndex := 0 },
   { Key := [106], Value := [101], DatabaseIndex := 0 },
   { Key := [107], Value := [102], DatabaseIndex := 0 }]

/-- Exclusion store of the exclusion example: keys c,e,h,i, read as the
closed intervals [c,e] and [h,i]. -/
def exclDemoExcluded : List Record :=
  [{ Key := [99], Value := [101], DatabaseIndex := 0 },
   { Key := [101], Value := [0], DatabaseIndex := 0 },
   { Key := [104], Value := [105], DatabaseIndex := 0 },
   { Key := [105], Value := [0], DatabaseIndex := 0 }]

/-- Witness for C2: the exclusion example — source keys a..h,j,k with
exclusion pairs (c,e),(h,i) yields the keys a b f g j k. -/
theorem readExcludingRanges_correct_witness :
    ((exclDemoSource.map Record.Key).Pairwise kLE) ∧
    ((exclDemoExcluded.map Record.Key).Pairwise kLT) ∧
    (exclDemoExcluded.length % 2 = 0) ∧
    (ReadExcludingRanges exclDemoSource exclDemoExcluded =
      exclDemoSource.filter
        (fun r => !(coveredBy r.Key (rangePairs (exclDemoExcluded.map Record.Key))))) ∧
    ((ReadExcludingRanges exclDemoSource exclDemoExcluded).map Record.Key =
      [[97], [98], [102], [103], [106], [107]]) :=
  ⟨by decide, by decide, by decide,
   readExcludingRanges_correct exclDemoSource exclDemoExcluded
     (by decide) (by decide) (by decide),
   by decide⟩

/-- Order on index-tagged records by (key, input index): strict version. -/
def mLT (x y : Nat × Record) : Prop :=
  kLT x.2.Key y.2.Key ∨ (x.2.Key = y.2.Key ∧ x.1 < y.1)

/-- Order on index-tagged records by (key, input index): non-strict version,
the sort relation of the stable merge. -/
def mLE (x y : Nat × Record) : Prop :=
  kLT x.2.Key y.2.Key ∨ (x.2.Key = y.2.Key ∧ x.1 ≤ y.1)

instance (x y : Nat × Record) : Decidable (mLT x y) := by
  unfold mLT
  infer_instance

instance (x y : Nat × Record) : Decidable (mLE x y) := by
  unfold mLE
  infer_instance

instance : IsTotal (Nat × Record) mLE :=
  ⟨fun x y => by
    rcases bytesCompare_trichotomy x.2.Key y.2.Key with h | h | h
    · exact Or.inl (Or.inl h)
    · rcases Nat.le_total x.1 y.1 with h2 | h2
      · exact Or.inl (Or.inr ⟨h, h2⟩)
      · exact Or.inr (Or.inr ⟨h.symm, h2⟩)
    · exact Or.inr (Or.inl h)⟩

instance : IsTrans (Nat × Record) mLE :=
  ⟨fun x y z h1 h2 => by
    rcases h1 with h1 | ⟨h1e, h1i⟩
    · rcases h2 with h2 | ⟨h2e, _⟩
      · exact Or.inl (kLT_trans h1 h2)
      · exact Or.inl (h2e ▸ h1)
    · rcases h2 with h2 | ⟨h2e, h2i⟩
      · exact Or.inl (h1e ▸ h2)
      · exact Or.inr ⟨h1e.trans h2e, Nat.le_trans h1i h2i⟩⟩

theorem mLT_asymm {x y : Nat × Record} (h : mLT x y) : ¬ mLT y x := by
  intro h2
  rcases h with h | ⟨he, hi⟩
  · rcases h2 with h2 | ⟨h2e, _⟩
    · exact kLT_asymm h h2
    · exact kLT_irrefl _ (h2e ▸ h)
  · rcases h2 with h2 | ⟨_, h2i⟩
    · exact kLT_irrefl _ (he ▸ h2)
    · omega

theorem mLE_and_ne_imp_mLT {x y : Nat × Record} (h : mLE x y)
    (hne : ¬ (x.2.Key = y.2.Key ∧ x.1 = y.1)) : mLT x y := by
  rcases h with h | ⟨he, hi⟩
  · exact Or.inl h
  · refine Or.inr ⟨he, ?_⟩
    rcases Nat.lt_or_ge x.1 y.1 with h2 | h2
    · exact h2
    · exact absurd ⟨he, Nat.le_antisymm hi h2⟩ hne

/-- Modelled from the spec: the demux reader's frontier after
`begin_reading` — "open every sub-reader and pull one record from each into
a frontier"; exhausted sub-readers are dropped.  Each entry is (input index,
pulled head record, remaining records of that sub-reader). -/
def frontierInit (i : Nat) : List (List Record) → List (Nat × Record × List Record)
  | [] => []
  | [] :: ls => frontierInit (i + 1) ls
  | (r :: rs) :: ls => (i, r, rs) :: frontierInit (i + 1) ls

/-- Modelled from the spec: refilling the emitted slot from its sub-reader;
a sub-reader at end-of-stream "is dropped from the frontier". -/
def refillEnt (i : Nat) (rs : List Record)
    (rest : List (Nat × Record × List Record)) : List (Nat × Record × List Record) :=
  match rs with
  | [] => rest
  | r :: rs2 => (i, r, rs2) :: rest

/-- Modelled from the spec: one selection step of the demux reader —
"each read_record selects the sub-reader whose head has the smallest key and
emits it, then refills that slot; on tie in key, selection is by sub-reader
input index (lower index wins)"; a linear scan in which a later entry wins
only with a strictly smaller head key. -/
def demuxPick : List (Nat × Record × List Record) →
    Option ((Nat × Record) × List (Nat × Record × List Record))
  | [] => none
  | (i, r, rs) :: rest =>
    match demuxPick rest with
    | none => some ((i, r), refillEnt i rs [])
    | some ((j, s), rest2) =>
      if kLT s.Key r.Key then some ((j, s), (i, r, rs) :: rest2)
      else some ((i, r), refillEnt i rs rest)

/-- Modelled from the spec: the demux read loop — "when the frontier is
empty, the reader returns end-of-stream"; fuel bounds the number of
records. -/
def demuxLoop : Nat → List (Nat × Record × List Record) → List (Nat × Record)
  | 0, _ => []
  | fuel + 1, F =>
    match demuxPick F with
    | none => []
    | some (hd, F2) => hd :: demuxLoop fuel F2

/-- All records reachable from one frontier entry, index-tagged. -/
def flatEnt (ent : Nat × Record × List Record) : List (Nat × Record) :=
  (ent.1, ent.2.1) :: ent.2.2.map (fun r => (ent.1, r))

/-- All records reachable from a frontier, index-tagged. -/
def flatT : List (Nat × Record × List Record) → List (Nat × Record)
  | [] => []
  | ent :: rest => flatEnt ent ++ flatT rest

/-- Modelled from the spec: the demux reader's full output over the record
sequences emitted by its sub-readers (`NewDemuxStoreReader`, whose
implementation file is not under src/ — only its example tests are). -/
def demuxReaderOutput (inputs : List (List Record)) : List Record :=
  (demuxLoop (flatT (frontierInit 0 inputs)).length (frontierInit 0 inputs)).map
    (fun x => x.2)

/-- Records of the inputs tagged with their input index, in input order. -/
def tagInputs (i : Nat) : List (List Record) → List (Nat × Record)
  | [] => []
  | l :: ls => l.map (fun r => (i, r)) ++ tagInputs (i + 1) ls

/-- Modelled from the spec: "the demux output equals the stable merge by
(key, input_index)" — the concatenated tagged inputs sorted stably by
(key, index); insertion sort is stable. -/
def stableMergeByKeyIndex (inputs : List (List Record)) : List Record :=
  (List.insertionSort mLE (tagInputs 0 inputs)).map (fun x => x.2)

/-- Entry invariant: the pulled head and the remaining records of one
sub-reader are strictly ascending by key. -/
def entOk (ent : Nat × Record × List Record) : Prop :=
  ((ent.2.1 :: ent.2.2).map Record.Key).Pairwise kLT

/-- Frontier invariant: every entry ascending, entries in strictly
increasing input-index order. -/
def frontOk (F : List (Nat × Record × List Record)) : Prop :=
  (∀ ent ∈ F, entOk ent) ∧ F.Pairwise (fun a b => a.1 < b.1)

theorem flatT_append : ∀ (A B : List (Nat × Record × List Record)),
    flatT (A ++ B) = flatT A ++ flatT B
  | [], _ => rfl
  | ent :: rest, B => by
    show flatEnt ent ++ flatT (rest ++ B) = (flatEnt ent ++ flatT rest) ++ flatT B
    rw [flatT_append rest B, List.append_assoc]

theorem flatT_refillEnt (i : Nat) (rs : List Record)
    (rest : List (Nat × Record × List Record)) :
    flatT (refillEnt i rs rest) = rs.map (fun r => (i, r)) ++ flatT rest := by
  cases rs with
  | nil => rfl
  | cons r rs2 => simp [refillEnt, flatT, flatEnt]

theorem mem_flatT {x : Nat × Record} :
    ∀ {F : List (Nat × Record × List Record)}, x ∈ flatT F →
      ∃ ent ∈ F, x ∈ flatEnt ent := by
  intro F
  induction F with
  | nil => intro h; simp [flatT] at h
  | cons ent rest ih =>
    intro h
    rcases List.mem_append.mp h with h | h
    · exact ⟨ent, List.mem_cons_self _ _, h⟩
    · rcases ih h with ⟨ent2, h1, h2⟩
      exact ⟨ent2, List.mem_cons_of_mem _ h1, h2⟩

theorem demuxPick_spec : ∀ (F : List (Nat × Record × List Record)), F ≠ [] →
    ∃ pre i r rs post,
      F = pre ++ (i, r, rs) :: post ∧
      demuxPick F = some ((i, r), pre ++ refillEnt i rs post) ∧
      (∀ ent ∈ pre, kLT r.Key ent.2.1.Key) ∧
      (∀ ent ∈ post, ¬ kLT ent.2.1.Key r.Key)
  | [], h => absurd rfl h
  | (i0, r0, rs0) :: rest, _ => by
    cases hrest : rest with
    | nil =>
      refine ⟨[], i0, r0, rs0, [], rfl, ?_, by simp, by simp⟩
      simp [demuxPick]
    | cons ent2 rest3 =>
      obtain ⟨pre1, i1, r1, rs1, post1, hF1, hpick1, hpre1, hpost1⟩ :=
        demuxPick_spec rest (by rw [hrest]; simp)
      have hpickF : demuxPick ((i0, r0, rs0) :: rest) =
          (if kLT r1.Key r0.Key then
             some ((i1, r1), (i0, r0, rs0) :: (pre1 ++ refillEnt i1 rs1 post1))
           else some ((i0, r0), refillEnt i0 rs0 rest)) := by
        simp only [demuxPick]
        rw [hpick1]
      rw [← hrest]
      by_cases hlt : kLT r1.Key r0.Key
      · refine ⟨(i0, r0, rs0) :: pre1, i1, r1, rs1, post1, ?_, ?_, ?_, hpost1⟩
        · rw [hF1]
          rfl
        · rw [hpickF, if_pos hlt]
          rfl
        · intro ent hent
          rcases List.mem_cons.mp hent with hent | hent
          · subst hent
            exact hlt
          · exact hpre1 ent hent
      · refine ⟨[], i0, r0, rs0, rest, rfl, ?_, by simp, ?_⟩
        · rw [hpickF, if_neg hlt]
          rfl
        · intro ent hent
          rw [hF1] at hent
          rcases List.mem_append.mp hent with hent | hent
          · intro hcon
            exact hlt (kLT_trans (hpre1 ent hent) hcon)
          · rcases List.mem_cons.mp hent with hent | hent
            · subst hent
              exact hlt
            · intro hcon
              have h1 : kLE r0.Key r1.Key := kLE_of_not_kLT hlt
              have h2 : kLE r1.Key ent.2.1.Key := kLE_of_not_kLT (hpost1 ent hent)
              exact kLT_irrefl _ (kLT_of_kLT_of_kLE hcon (kLE_trans h1 h2))

theorem flatEnt_mem_le {ent : Nat × Record × List Record} (hok : entOk ent) :
    ∀ x ∈ flatEnt ent, kLE ent.2.1.Key x.2.Key ∧ x.1 = ent.1 := by
  intro x hx
  rcases List.mem_cons.mp hx with hx | hx
  · subst hx
    exact ⟨kLE_refl _, rfl⟩
  · obtain ⟨r2, hr2, hx2⟩ := List.mem_map.mp hx
    have hlt : kLT ent.2.1.Key r2.Key := by
      have hpw : (ent.2.1.Key :: (ent.2.2.map Record.Key)).Pairwise kLT := hok
      exact (List.pairwise_cons.mp hpw).1 r2.Key (List.mem_map_of_mem _ hr2)
    rw [← hx2]
    exact ⟨kLE_iff.mpr (Or.inl hlt), rfl⟩

theorem demuxPick_min {F : List (Nat × Record × List Record)}
    (hok : frontOk F) (hne : F ≠ []) :
    ∃ w F2, demuxPick F = some (w, F2) ∧
      List.Perm (flatT F) (w :: flatT F2) ∧
      (∀ x ∈ flatT F2, mLT w x) ∧
      frontOk F2 := by
  obtain ⟨pre, i, r, rs, post, hF, hpick, hpre, hpost⟩ := demuxPick_spec F hne
  have hmemF : (i, r, rs) ∈ F := by
    rw [hF]
    exact List.mem_append_right _ (List.mem_cons_self _ _)
  have hentOk : entOk (i, r, rs) := hok.1 _ hmemF
  have hentpw : (r.Key :: rs.map Record.Key).Pairwise kLT := hentOk
  have hidx := hok.2
  rw [hF, List.pairwise_append] at hidx
  obtain ⟨hpwpre, hpwcons, hcross⟩ := hidx
  rcases List.pairwise_cons.mp hpwcons with ⟨hheadidx, hpwpost⟩
  refine ⟨(i, r), pre ++ refillEnt i rs post, hpick, ?_, ?_, ?_⟩
  · rw [hF, flatT_append, flatT_append, flatT_refillEnt]
    have h1 : flatT ((i, r, rs) :: post) =
        (i, r) :: (rs.map (fun x => (i, x)) ++ flatT post) := rfl
    rw [h1]
    exact List.perm_middle
  · intro x hx
    rw [flatT_append, flatT_refillEnt] at hx
    rcases List.mem_append.mp hx with hx | hx
    · obtain ⟨ent, hent, hxent⟩ := mem_flatT hx
      have hentOk2 : entOk ent := hok.1 ent (by rw [hF]; exact List.mem_append_left _ hent)
      obtain ⟨hle, _⟩ := flatEnt_mem_le hentOk2 x hxent
      exact Or.inl (kLT_of_kLT_of_kLE (hpre ent hent) hle)
    · rcases List.mem_append.mp hx with hx | hx
      · obtain ⟨r2, hr2, hx2⟩ := List.mem_map.mp hx
        have hlt : kLT r.Key r2.Key :=
          (List.pairwise_cons.mp hentpw).1 r2.Key (List.mem_map_of_mem _ hr2)
        rw [← hx2]
        exact Or.inl hlt
      · obtain ⟨ent, hent, hxent⟩ := mem_flatT hx
        have hentOk2 : entOk ent := hok.1 ent
          (by rw [hF]; exact List.mem_append_right _ (List.mem_cons_of_mem _ hent))
        obtain ⟨hle, hxidx⟩ := flatEnt_mem_le hentOk2 x hxent
        have hrle : kLE r.Key ent.2.1.Key := kLE_of_not_kLT (hpost ent hent)
        have hiidx : i < ent.1 := hheadidx ent hent
        rcases kLE_iff.mp (kLE_trans hrle hle) with hlt | heq
        · exact Or.inl hlt
        · exact Or.inr ⟨heq, by rw [hxidx]; exact hiidx⟩
  · constructor
    · intro ent hent
      rcases List.mem_append.mp hent with hent | hent
      · exact hok.1 ent (by rw [hF]; exact List.mem_append_left _ hent)
      · cases hrs : rs with
        | nil =>
          rw [hrs] at hent
          exact hok.1 ent
            (by rw [hF]; exact List.mem_append_right _ (List.mem_cons_of_mem _ hent))
        | cons r2 rs2 =>
          rw [hrs] at hent
          rcases List.mem_cons.mp hent with hent | hent
          · subst hent
            have : ((r2 :: rs2).map Record.Key).Pairwise kLT := by
              rw [hrs] at hentpw
              exact (List.pairwise_cons.mp hentpw).2
            simpa [entOk] using this
          · exact hok.1 ent
              (by rw [hF]; exact List.mem_append_right _ (List.mem_cons_of_mem _ hent))
    · rw [List.pairwise_append]
      refine ⟨hpwpre, ?_, ?_⟩
      · cases hrs : rs with
        | nil => exact hpwpost
        | cons r2 rs2 =>
          refine List.pairwise_cons.mpr ⟨?_, hpwpost⟩
          intro b hb
          exact hheadidx b hb
      · intro a ha b hb
        cases hrs : rs with
        | nil =>
          rw [hrs] at hb
          exact hcross a ha b (List.mem_cons_of_mem _ hb)
        | cons r2 rs2 =>
          rw [hrs] at hb
          rcases List.mem_cons.mp hb with hb | hb
          · subst hb
            exact hcross a ha (i, r, rs) (List.mem_cons_self _ _)
          · exact hcross a ha b (List.mem_cons_of_mem _ hb)

theorem demuxLoop_spec : ∀ (fuel : Nat) (F : List (Nat × Record × List Record)),
    frontOk F → (flatT F).length ≤ fuel →
    List.Perm (demuxLoop fuel F) (flatT F) ∧ (demuxLoop fuel F).Pairwise mLT := by
  intro fuel
  induction fuel with
  | zero =>
    intro F _ hlen
    have hnil : flatT F = [] := List.eq_nil_of_length_eq_zero (Nat.le_zero.mp hlen)
    rw [hnil]
    exact ⟨List.Perm.refl _, List.Pairwise.nil⟩
  | succ fuel ih =>
    intro F hok hlen
    by_cases hF : F = []
    · subst hF
      exact ⟨List.Perm.refl _, List.Pairwise.nil⟩
    · obtain ⟨w, F2, hpick, hperm, hmin, hok2⟩ := demuxPick_min hok hF
      have hlen2 : (flatT F2).length ≤ fuel := by
        have hl := hperm.length_eq
        simp only [List.length_cons] at hl
        omega
      have hloop : demuxLoop (fuel + 1) F = w :: demuxLoop fuel F2 := by
        simp only [demuxLoop]
        rw [hpick]
      obtain ⟨ihperm, ihpw⟩ := ih F2 hok2 hlen2
      rw [hloop]
      constructor
      · exact (ihperm.cons w).trans hperm.symm
      · refine List.pairwise_cons.mpr ⟨?_, ihpw⟩
        intro x hx
        exact hmin x (ihperm.subset hx)

theorem flatT_frontierInit : ∀ (ls : List (List Record)) (i : Nat),
    flatT (frontierInit i ls) = tagInputs i ls
  | [], _ => rfl
  | [] :: ls, i => by
    simp only [frontierInit, tagInputs, List.map_nil, List.nil_append]
    exact flatT_frontierInit ls (i + 1)
  | (r :: rs) :: ls, i => by
    simp only [frontierInit, tagInputs, flatT, flatEnt, List.map_cons, List.cons_append]
    rw [flatT_frontierInit ls (i + 1)]

theorem frontierInit_idx_ge : ∀ (ls : List (List Record)) (i : Nat),
    ∀ ent ∈ frontierInit i ls, i ≤ ent.1
  | [], _, ent, h => by simp [frontierInit] at h
  | [] :: ls, i, ent, h => by
    have := frontierInit_idx_ge ls (i + 1) ent (by simpa [frontierInit] using h)
    omega
  | (r :: rs) :: ls, i, ent, h => by
    simp only [frontierInit, List.mem_cons] at h
    rcases h with h | h
    · subst h
      exact Nat.le_refl i
    · have := frontierInit_idx_ge ls (i + 1) ent h
      omega

theorem frontierInit_ok : ∀ (ls : List (List Record)) (i : Nat),
    (∀ l ∈ ls, (l.map Record.Key).Pairwise kLT) → frontOk (frontierInit i ls)
  | [], _, _ => ⟨by simp [frontierInit], by simp [frontierInit]⟩
  | [] :: ls, i, h => by
    simp only [frontierInit]
    exact frontierInit_ok ls (i + 1) (fun l hl => h l (List.mem_cons_of_mem _ hl))
  | (r :: rs) :: ls, i, h => by
    obtain ⟨ihok, ihpw⟩ :=
      frontierInit_ok ls (i + 1) (fun l hl => h l (List.mem_cons_of_mem _ hl))
    constructor
    · intro ent hent
      simp only [frontierInit, List.mem_cons] at hent
      rcases hent with hent | hent
      · subst hent
        exact h (r :: rs) (List.mem_cons_self _ _)
      · exact ihok ent hent
    · simp only [frontierInit]
      refine List.pairwise_cons.mpr ⟨?_, ihpw⟩
      intro ent hent
      have := frontierInit_idx_ge ls (i + 1) ent hent
      omega

theorem tagInputs_idx_ge : ∀ (ls : List (List Record)) (i : Nat),
    ∀ x ∈ tagInputs i ls, i ≤ x.1
  | [], _, x, h => by simp [tagInputs] at h
  | l :: ls, i, x, h => by
    simp only [tagInputs] at h
    rcases List.mem_append.mp h with h | h
    · obtain ⟨r, _, hx⟩ := List.mem_map.mp h
      rw [← hx]
    · have := tagInputs_idx_ge ls (i + 1) x h
      omega

theorem tagInputs_keyIdx_ne : ∀ (ls : List (List Record)) (i : Nat),
    (∀ l ∈ ls, (l.map Record.Key).Pairwise kLT) →
    (tagInputs i ls).Pairwise (fun x y => ¬ (x.2.Key = y.2.Key ∧ x.1 = y.1))
  | [], _, _ => by simp [tagInputs]
  | l :: ls, i, h => by
    simp only [tagInputs]
    rw [List.pairwise_append]
    refine ⟨?_, ?_, ?_⟩
    · rw [List.pairwise_map]
      have hl : (l.map Record.Key).Pairwise kLT := h l (List.mem_cons_self _ _)
      rw [List.pairwise_map] at hl
      apply hl.imp
      intro a b hab hcon
      exact kLT_irrefl _ (hcon.1 ▸ hab)
    · exact tagInputs_keyIdx_ne ls (i + 1) (fun l2 hl2 => h l2 (List.mem_cons_of_mem _ hl2))
    · intro a ha b hb
      obtain ⟨r, _, har⟩ := List.mem_map.mp ha
      have hbge : i + 1 ≤ b.1 := tagInputs_idx_ge ls (i + 1) b hb
      intro hcon
      rw [← har] at hcon
      omega

/-- C1: spec-modelled demux reader.  For sub-readers each strictly ascending
by key, the demux reader's output equals the stable merge of the tagged
inputs by (key, input index): equal keys come out in order of input index,
and within one input the source order is preserved. -/
theorem demux_equals_stable_merge (inputs : List (List Record))
    (hsorted : ∀ l ∈ inputs, (l.map Record.Key).Pairwise kLT) :
    demuxReaderOutput inputs = stableMergeByKeyIndex inputs := by
  have hok := frontierInit_ok inputs 0 hsorted
  obtain ⟨hperm, hpw⟩ := demuxLoop_spec (flatT (frontierInit 0 inputs)).length
    (frontierInit 0 inputs) hok (Nat.le_refl _)
  have htag : flatT (frontierInit 0 inputs) = tagInputs 0 inputs :=
    flatT_frontierInit inputs 0
  have hsortperm : List.Perm (List.insertionSort mLE (tagInputs 0 inputs))
      (tagInputs 0 inputs) := List.perm_insertionSort mLE _
  have hsortle : (List.insertionSort mLE (tagInputs 0 inputs)).Pairwise mLE :=
    List.sorted_insertionSort mLE _
  have hne : (tagInputs 0 inputs).Pairwise (fun x y => ¬ (x.2.Key = y.2.Key ∧ x.1 = y.1)) :=
    tagInputs_keyIdx_ne inputs 0 hsorted
  have hne2 : (List.insertionSort mLE (tagInputs 0 inputs)).Pairwise
      (fun x y => ¬ (x.2.Key = y.2.Key ∧ x.1 = y.1)) :=
    hne.perm hsortperm.symm (fun h hc => h ⟨hc.1.symm, hc.2.symm⟩)
  have hsortlt : (List.insertionSort mLE (tagInputs 0 inputs)).Pairwise mLT :=
    (pairwise_and_of hsortle hne2).imp (fun h => mLE_and_ne_imp_mLT h.1 h.2)
  have hperm2 : List.Perm
      (demuxLoop (flatT (frontierInit 0 inputs)).length (frontierInit 0 inputs))
      (List.insertionSort mLE (tagInputs 0 inputs)) := by
    refine hperm.trans ?_
    rw [htag]
    exact hsortperm.symm
  haveI : IsAntisymm (Nat × Record) (fun x y => mLT x y ∨ x = y) := by
    constructor
    intro a b h1 h2
    rcases h1 with h1 | h1
    · rcases h2 with h2 | h2
      · exact absurd h2 (mLT_asymm h1)
      · exact h2.symm
    · exact h1
  have hpw2 : (demuxLoop (flatT (frontierInit 0 inputs)).length
      (frontierInit 0 inputs)).Pairwise (fun x y => mLT x y ∨ x = y) :=
    hpw.imp (fun h => Or.inl h)
  have hsortlt2 : (List.insertionSort mLE (tagInputs 0 inputs)).Pairwise
      (fun x y => mLT x y ∨ x = y) := hsortlt.imp (fun h => Or.inl h)
  have heq : demuxLoop (flatT (frontierInit 0 inputs)).length (frontierInit 0 inputs) =
      List.insertionSort mLE (tagInputs 0 inputs) :=
    List.eq_of_perm_of_sorted hperm2 hpw2 hsortlt2
  unfold demuxReaderOutput stableMergeByKeyIndex
  rw [heq]

/-- Inputs of the duplicate-key demux example: store 0 holds
(a,foo0),(b,bar0),(c,baz0) and store 1 holds (b,foo1),(c,bar1). -/
def demuxDemoInputs : List (List Record) :=
  [[{ Key := [97], Value := [1], DatabaseIndex := 0 },
    { Key := [98], Value := [2], DatabaseIndex := 0 },
    { Key := [99], Value := [3], DatabaseIndex := 0 }],
   [{ Key := [98], Value := [4], DatabaseIndex := 1 },
    { Key := [99], Value := [5], DatabaseIndex := 1 }]]

/-- Witness for C1: on the duplicate-key example the demux output equals the
stable merge and is a:foo0, b:bar0, b:foo1, c:baz0, c:bar1. -/
theorem demux_equals_stable_merge_witness :
    (∀ l ∈ demuxDemoInputs, (l.map Record.Key).Pairwise kLT) ∧
    demuxReaderOutput demuxDemoInputs = stableMergeByKeyIndex demuxDemoInputs ∧
    demuxReaderOutput demuxDemoInputs =
      [{ Key := [97], Value := [1], DatabaseIndex := 0 },
       { Key := [98], Value := [2], DatabaseIndex := 0 },
       { Key := [98], Value := [4], DatabaseIndex := 1 },
       { Key := [99], Value := [3], DatabaseIndex := 0 },
       { Key := [99], Value := [5], DatabaseIndex := 1 }] :=
  ⟨by decide, demux_equals_stable_merge demuxDemoInputs (by decide), by decide⟩
